import Mathlib

/-!
Verification of the JSON tree editor core of the Variably repository.

The definitions below are a shallow embedding of the TypeScript sources:

* `src/variably-react/src/types/json-editor/json-editor.tsx`
  (`convertToAtlassianTree`, `convertFromAtlassianTree`/`convertItemsToJson`,
  `updateItemTitle`, `removeItem`, `handleDragEnd`, `filteredTreeData`,
  the inline-rename confirm/validate logic of `renderItem`);
* `src/variably-react/src/types/json-editor/node-editor.tsx`
  (`ValueNode.handleSave`, `ArrayNode.handleSave`, the node-update callback
  installed by `addNewNode`);
* the `processFiles` routine of the file drop zone.

Modelling conventions:

* JSON numbers are modelled as integers (`Int`).  The claims under study only
  move numbers around verbatim and test JS truthiness (`0` is falsy), which
  the integer model captures.
* A JavaScript record (`Record<ItemId, TreeItem>`) is modelled as an
  association list with `lookupItem` returning the first binding.  Fresh
  assignments made by the converter are modelled as appends; assignments to
  existing keys (the mutation helpers) are modelled by `setAssoc`, which
  replaces the binding in place exactly as JS does.  Theorems whose truth
  depends on record-key uniqueness carry an explicit `Nodup` hypothesis.
* `JSON.parse` (a browser built-in, not repository code) is taken as an
  abstract parameter `parse : String → Option JValue` where needed.
* Recursions of the source that walk an arbitrary id-indexed tree (and hence
  do not structurally terminate on adversarial inputs) take an explicit fuel
  argument; theorems supply enough fuel for the trees they speak about.
-/

namespace Variably

/-- A JSON value.  Numbers are modelled as integers; object fields keep the
in-memory property order, mirroring what `JSON.parse` produces. -/
inductive JValue : Type where
  | null : JValue
  | bool (b : Bool) : JValue
  | num (n : Int) : JValue
  | str (s : String) : JValue
  | arr (elems : List JValue) : JValue
  | obj (fields : List (String × JValue)) : JValue
deriving Repr

mutual

/-- Structural equality on JSON values (decidable equality is derived from
it below). -/
def jeq : JValue → JValue → Bool
  | .null, .null => true
  | .bool a, .bool b => a = b
  | .num a, .num b => a = b
  | .str a, .str b => a = b
  | .arr a, .arr b => jeqList a b
  | .obj a, .obj b => jeqFields a b
  | _, _ => false

/-- Structural equality on lists of JSON values. -/
def jeqList : List JValue → List JValue → Bool
  | [], [] => true
  | a :: as, b :: bs => jeq a b && jeqList as bs
  | _, _ => false

/-- Structural equality on object field lists. -/
def jeqFields : List (String × JValue) → List (String × JValue) → Bool
  | [], [] => true
  | a :: as, b :: bs => (decide (a.1 = b.1) && jeq a.2 b.2) && jeqFields as bs
  | _, _ => false

end

mutual

theorem jeq_eq : ∀ a b : JValue, jeq a b = true ↔ a = b
  | .null, b => by cases b <;> simp [jeq]
  | .bool a, b => by cases b <;> simp [jeq]
  | .num a, b => by cases b <;> simp [jeq]
  | .str a, b => by cases b <;> simp [jeq]
  | .arr as, b => by
    cases b <;> simp [jeq]
    exact jeqList_eq as _
  | .obj fs, b => by
    cases b <;> simp [jeq]
    exact jeqFields_eq fs _

theorem jeqList_eq : ∀ a b : List JValue, jeqList a b = true ↔ a = b
  | [], b => by cases b <;> simp [jeqList]
  | a :: as, [] => by simp [jeqList]
  | a :: as, b :: bs => by
    simp [jeqList, Bool.and_eq_true, jeq_eq a b, jeqList_eq as bs]

theorem jeqFields_eq :
    ∀ a b : List (String × JValue), jeqFields a b = true ↔ a = b
  | [], b => by cases b <;> simp [jeqFields]
  | a :: as, [] => by simp [jeqFields]
  | a :: as, b :: bs => by
    simp [jeqFields, Bool.and_eq_true, jeq_eq a.2 b.2, jeqFields_eq as bs,
      Prod.ext_iff]

end

instance : DecidableEq JValue := fun a b => decidable_of_iff _ (jeq_eq a b)

/-- JavaScript truthiness of a JSON value (`value || {}` replaces falsy
values): `null`, `false`, `0` and the empty string are falsy, every array or
object (including empty ones) is truthy. -/
def jsTruthy : JValue → Bool
  | .null => false
  | .bool b => b
  | .num n => n ≠ 0
  | .str s => s ≠ ""
  | .arr _ => true
  | .obj _ => true

/-- The `type` string computed by the converter:
`Array.isArray(value) ? 'array' : typeof value === 'object' ? 'object' : typeof value`.
Note that `typeof null === 'object'` in JavaScript, so `null` is typed
`"object"` here. -/
def typeName : JValue → String
  | .arr _ => "array"
  | .obj _ => "object"
  | .null => "object"
  | .bool _ => "boolean"
  | .num _ => "number"
  | .str _ => "string"

/-- `typeof value === 'object' && value !== null &&
(Array.isArray(value) ? value.length > 0 : Object.keys(value).length > 0)`. -/
def hasChildrenOf : JValue → Bool
  | .arr xs => !xs.isEmpty
  | .obj fs => !fs.isEmpty
  | _ => false

/-- The `data` payload of a tree item (`title`, `value`, `type`, `path`).
`value` and `path` are optional because the synthetic root and nodes created
by `Add Root Node` omit them; `vtype` models the `type` field. -/
structure ItemData : Type where
  title : String
  value : Option JValue
  vtype : Option String
  path : Option String
deriving Repr, DecidableEq

/-- One Atlassian tree item as built by the editor. -/
structure TreeItem : Type where
  id : String
  children : List String
  data : Option ItemData
  hasChildren : Bool
  isExpanded : Bool
deriving Repr, DecidableEq

instance : Inhabited TreeItem := ⟨⟨"", [], none, false, false⟩⟩

/-- The record of items, keyed by item id, in insertion order. -/
abbrev ItemsMap : Type := List (String × TreeItem)

/-- `TreeData = { rootId, items }`. -/
structure TreeData : Type where
  rootId : String
  items : ItemsMap
deriving Repr, DecidableEq

/-- Generic record read `r[k]`: the first binding of the key. -/
def getAssoc {α : Type} (r : List (String × α)) (k : String) : Option α :=
  (r.find? (fun e => e.1 = k)).map (fun e => e.2)

/-- Record read `items[k]`. -/
def lookupItem (items : ItemsMap) (k : String) : Option TreeItem :=
  getAssoc items k

/-- Record write `r[k] = v` for a generic association list: replaces the
binding in place when the key is present (as JS does), otherwise appends. -/
def setAssoc {α : Type} (r : List (String × α)) (k : String) (v : α) :
    List (String × α) :=
  if r.any (fun e => e.1 = k) then
    r.map (fun e => if e.1 = k then (k, v) else e)
  else
    r ++ [(k, v)]

/-- Decimal digit character. -/
def digitChar (d : Nat) : Char := Char.ofNat (48 + d)

/-- Digit expansion worker; `fuel` only bounds the recursion (any
`fuel > n` computes the full decimal expansion). -/
def natReprAux : Nat → Nat → List Char
  | 0, _ => []
  | f + 1, n =>
    if n < 10 then [digitChar n]
    else natReprAux f (n / 10) ++ [digitChar (n % 10)]

/-- Decimal representation of a natural number, as produced by JS string
interpolation of a non-negative integer. -/
def natRepr (n : Nat) : List Char := natReprAux (n + 1) n

/-- `${index}` as a string. -/
def natStr (n : Nat) : String := String.mk (natRepr n)

/-- The ten decimal digit characters (used to reason about the titles the
array converter generates). -/
def decDigits : List Char := ['0','1','2','3','4','5','6','7','8','9']

/-- Id of an array element node: `array-${parentId}-${index}`. -/
def arrayId (parentId : String) (i : Nat) : String :=
  "array-" ++ parentId ++ "-" ++ natStr i

/-- Id of an object member node: `object-${parentId}-${key}`. -/
def objectId (parentId : String) (key : String) : String :=
  "object-" ++ parentId ++ "-" ++ key

/-- `path.join('.')`. -/
def joinDots (path : List String) : String := String.intercalate "." path

/-- The item built for a child value `v` labelled `title` with id `id`,
children `kids` and path `currentPath` (cf. the two `items[id] = {...}`
assignments in `buildTreeItems`).  `path.length < 2` seeds auto-expansion. -/
def mkChildItem (v : JValue) (id : String) (title : String)
    (kids : List String) (currentPath : List String) (parentPathLen : Nat) :
    TreeItem :=
  { id := id
    children := kids
    data := some
      { title := title
        value := some v
        vtype := some (typeName v)
        path := some (joinDots currentPath) }
    hasChildren := hasChildrenOf v
    isExpanded := parentPathLen < 2 }

mutual

/-- `buildTreeItems` of `convertToAtlassianTree`: returns the list of record
assignments it performs (in assignment order: descendants before the node
itself, siblings left to right) together with the list of child ids. -/
def buildTreeItems : JValue → String → List String → ItemsMap × List String
  | .arr xs, parentId, path => buildArr xs 0 parentId path
  | .obj fs, parentId, path => buildObj fs parentId path
  | _, _, _ => ([], [])

/-- The `data.forEach((value, index) => ...)` loop of `buildTreeItems`,
generalised over the starting index. -/
def buildArr : List JValue → Nat → String → List String → ItemsMap × List String
  | [], _, _, _ => ([], [])
  | v :: rest, i, parentId, path =>
    let id := arrayId parentId i
    let currentPath := path ++ [natStr i]
    let sub := if hasChildrenOf v then buildTreeItems v id currentPath else ([], [])
    let item := mkChildItem v id ("[" ++ natStr i ++ "]") sub.2 currentPath path.length
    let tail := buildArr rest (i + 1) parentId path
    (sub.1 ++ [(id, item)] ++ tail.1, id :: tail.2)

/-- The `Object.entries(data).forEach(([key, value]) => ...)` loop of
`buildTreeItems`. -/
def buildObj : List (String × JValue) → String → List String → ItemsMap × List String
  | [], _, _ => ([], [])
  | f :: rest, parentId, path =>
    let id := objectId parentId f.1
    let currentPath := path ++ [f.1]
    let sub := if hasChildrenOf f.2 then buildTreeItems f.2 id currentPath else ([], [])
    let item := mkChildItem f.2 id f.1 sub.2 currentPath path.length
    let tail := buildObj rest parentId path
    (sub.1 ++ [(id, item)] ++ tail.1, id :: tail.2)

end

/-- The synthetic root item (`items[rootId] = {...}`). -/
def mkRootItem (rootChildren : List String) : TreeItem :=
  { id := "root"
    children := rootChildren
    data := some { title := "root", value := none, vtype := some "root", path := none }
    hasChildren := !rootChildren.isEmpty
    isExpanded := true }

/-- `convertToAtlassianTree`: build all items, then the root, rooted at
`'root'`. -/
def convertToAtlassianTree (v : JValue) : TreeData :=
  let b := buildTreeItems v "root" []
  { rootId := "root", items := b.1 ++ [("root", mkRootItem b.2)] }

/-! ### JavaScript number parsing

`convertItemsToJson` decides array-vs-object with
`!isNaN(Number(title.replace(/[[\]]/g, '')))` and computes array indices with
`parseInt(...)`.  The two helpers below model the validity test of `Number`
(the full `StringNumericLiteral` grammar: optional whitespace, empty string,
signed decimal with fraction and exponent, `Infinity`, and the `0x`/`0o`/`0b`
radix prefixes) and the value of `parseInt` (`none` models `NaN`). -/

/-- `/[[\]]/g` replacement: remove every `[` and `]`. -/
def stripBrackets (s : String) : String :=
  String.mk (s.data.filter (fun c => !(c = '[' || c = ']')))

/-- The JS whitespace characters recognised by `Number`/`parseInt`
(the common subset: space, tab, line feed, carriage return, vertical tab,
form feed, no-break space). -/
def isJsWs (c : Char) : Bool :=
  c = ' ' || c = '\t' || c = '\n' || c = '\r' || c = '\x0b' || c = '\x0c' ||
    c = ' '

/-- Trim leading and trailing JS whitespace from a character list. -/
def jsTrim (cs : List Char) : List Char :=
  ((cs.dropWhile isJsWs).reverse.dropWhile isJsWs).reverse

/-- `s.trim()` on a JS string. -/
def strTrim (s : String) : String := String.mk (jsTrim s.data)

/-- Decimal digit test. -/
def isDig (c : Char) : Bool := '0' ≤ c && c ≤ '9'

/-- Hexadecimal digit test. -/
def isHexDig (c : Char) : Bool :=
  isDig c || ('a' ≤ c && c ≤ 'f') || ('A' ≤ c && c ≤ 'F')

/-- Validity of an optional exponent part (`e`/`E`, optional sign, digits). -/
def expPartOK : List Char → Bool
  | [] => true
  | c :: rest =>
    (c = 'e' || c = 'E') &&
      (match rest with
       | [] => false
       | s :: more =>
         if s = '+' || s = '-' then !more.isEmpty && more.all isDig
         else !rest.isEmpty && rest.all isDig)

/-- Validity of an unsigned decimal mantissa with optional fraction and
exponent. -/
def mantissaOK (cs : List Char) : Bool :=
  let d1 := cs.takeWhile isDig
  let r1 := cs.dropWhile isDig
  match r1 with
  | '.' :: r2 =>
    let d2 := r2.takeWhile isDig
    let r3 := r2.dropWhile isDig
    (!d1.isEmpty || !d2.isEmpty) && expPartOK r3
  | _ => !d1.isEmpty && expPartOK r1

/-- Validity of an unsigned decimal literal or `Infinity`. -/
def unsignedOK (cs : List Char) : Bool :=
  cs = "Infinity".data || mantissaOK cs

/-- `!isNaN(Number(s))`: does the string convert to a number? -/
def jsNumberParses (s : String) : Bool :=
  let cs := jsTrim s.data
  match cs with
  | [] => true
  | '0' :: x :: rest =>
    if x = 'x' || x = 'X' then !rest.isEmpty && rest.all isHexDig
    else if x = 'o' || x = 'O' then
      !rest.isEmpty && rest.all (fun c => '0' ≤ c && c ≤ '7')
    else if x = 'b' || x = 'B' then
      !rest.isEmpty && rest.all (fun c => c = '0' || c = '1')
    else unsignedOK cs
  | c :: rest =>
    if c = '+' || c = '-' then unsignedOK rest else unsignedOK cs

/-- Numeric value of a list of decimal digit characters. -/
def digitsVal (cs : List Char) : Nat :=
  cs.foldl (fun acc c => 10 * acc + (c.toNat - 48)) 0

/-- The unsigned part of `parseInt` applied after sign stripping: a `0x`
prefix switches to hexadecimal, otherwise the leading decimal digits are
taken (an empty digit run is `NaN`, except that a decimal run starting `0`
always has at least the `0`). -/
def jsParseIntCore (neg : Bool) : List Char → Option Int
  | '0' :: x :: rest =>
    if x = 'x' || x = 'X' then
      let d := rest.takeWhile isHexDig
      if d.isEmpty then none
      else
        let v : Int := (d.foldl (fun acc c =>
          16 * acc + (if isDig c then c.toNat - 48
            else if 'a' ≤ c && c ≤ 'f' then c.toNat - 87 else c.toNat - 55)) 0 : Nat)
        some (if neg then -v else v)
    else
      let d := ('0' :: x :: rest).takeWhile isDig
      some (if neg then -(digitsVal d : Int) else (digitsVal d : Int))
  | cs =>
    let d := cs.takeWhile isDig
    if d.isEmpty then none
    else some (if neg then -(digitsVal d : Int) else (digitsVal d : Int))

/-- `parseInt(s)` (radix 10 or a `0x` prefix, as the source calls it):
`none` models `NaN`; the leading sign is stripped first. -/
def jsParseInt (s : String) : Option Int :=
  match jsTrim s.data with
  | '-' :: rest => jsParseIntCore true rest
  | '+' :: rest => jsParseIntCore false rest
  | cs => jsParseIntCore false cs

/-- The array test applied to one item:
`item && !isNaN(Number(item.data?.title?.replace(/[[\]]/g, '')))`
(`Number(undefined)` is `NaN`, so missing data counts as non-numeric). -/
def numericTitle (d : Option ItemData) : Bool :=
  match d with
  | some dd => jsNumberParses (stripBrackets dd.title)
  | none => false

/-- The array index of an item:
`parseInt(item.data?.title?.replace(/[[\]]/g, '') || '0')`.
A missing or empty stripped title is falsy, hence replaced by `'0'`.
The `none` (`NaN`) outcome is mapped to `0` by the caller; it is unreachable
in the array branch for the trees the theorems speak about. -/
def titleIndex (d : Option ItemData) : Option Int :=
  let s := match d with
    | some dd => stripBrackets dd.title
    | none => ""
  jsParseInt (if s = "" then "0" else s)

/-- `item.data?.value || {}`: the leaf contribution.  A missing `data`, a
missing `value`, and every JS-falsy value (`null`, `false`, `0`, `""`) all
yield the empty object. -/
def valueOrEmptyObj (d : Option ItemData) : JValue :=
  match d with
  | some dd =>
    match dd.value with
    | some v => if jsTruthy v then v else .obj []
    | none => .obj []
  | none => .obj []

/-- Stable insertion of an indexed item: the new element goes before the
first strictly larger key and before no equal key, matching the stable
ascending `.sort((a, b) => a.index - b.index)`. -/
def insertByIdx (x : Int × TreeItem) : List (Int × TreeItem) → List (Int × TreeItem)
  | [] => [x]
  | y :: ys => if x.1 ≤ y.1 then x :: y :: ys else y :: insertByIdx x ys

/-- Stable sort by index (models the JS stable `Array.prototype.sort`). -/
def sortByIdx (l : List (Int × TreeItem)) : List (Int × TreeItem) :=
  l.foldr insertByIdx []

/-- `convertItemsToJson` of `convertFromAtlassianTree`.  `fuel` bounds the
recursion depth (the source recursion is bounded by the finite acyclic trees
it is fed); with fuel exhausted the function returns `{}`. -/
def convertItemsToJson (items : ItemsMap) : Nat → List String → JValue
  | 0, _ => .obj []
  | fuel + 1, itemIds =>
    if itemIds.isEmpty then .obj []
    else
      let isArray := itemIds.all (fun itemId =>
        match lookupItem items itemId with
        | some item => numericTitle item.data
        | none => false)
      if isArray then
        let sorted := sortByIdx (itemIds.map (fun itemId =>
          match lookupItem items itemId with
          | some item => ((titleIndex item.data).getD 0, item)
          | none => (0, default)))
        .arr (sorted.map (fun p =>
          if p.2.children.isEmpty then valueOrEmptyObj p.2.data
          else convertItemsToJson items fuel p.2.children))
      else
        .obj (itemIds.foldl (fun acc itemId =>
          match lookupItem items itemId with
          | none => acc
          | some item =>
            let key := match item.data with
              | some d => d.title
              | none => ""
            setAssoc acc key
              (if item.children.isEmpty then valueOrEmptyObj item.data
               else convertItemsToJson items fuel item.children)) [])

/-- `convertFromAtlassianTree`: `{}` when the root is missing or childless,
otherwise the conversion of the root's children. -/
def convertFromAtlassianTree (fuel : Nat) (t : TreeData) : JValue :=
  match lookupItem t.items t.rootId with
  | none => .obj []
  | some rootItem =>
    if rootItem.children.isEmpty then .obj []
    else convertItemsToJson t.items fuel rootItem.children

mutual

/-- Nesting depth of a JSON value (leaves have depth 0); used to supply
enough fuel to `convertFromAtlassianTree`. -/
def jdepth : JValue → Nat
  | .arr xs => 1 + jdepthList xs
  | .obj fs => 1 + jdepthFields fs
  | _ => 0

/-- Maximum depth over a list of values. -/
def jdepthList : List JValue → Nat
  | [] => 0
  | x :: xs => max (jdepth x) (jdepthList xs)

/-- Maximum depth over object fields. -/
def jdepthFields : List (String × JValue) → Nat
  | [] => 0
  | f :: fs => max (jdepth f.2) (jdepthFields fs)

end

/-! ### Tree mutations (`json-editor.tsx`) -/

/-- `{ ...old.data, title: newTitle }` of `updateItemTitle`: spreading an
absent `data` yields a record holding only the new `title`. -/
def retitleData (d : Option ItemData) (newTitle : String) : ItemData :=
  match d with
  | some dd => { dd with title := newTitle }
  | none => { title := newTitle, value := none, vtype := none, path := none }

/-- `updateItemTitle`: replace the item's `data.title` when the id is
present, otherwise return the (value-equal) copied state. -/
def updateItemTitle (t : TreeData) (itemId : String) (newTitle : String) :
    TreeData :=
  match lookupItem t.items itemId with
  | none => { rootId := t.rootId, items := t.items }
  | some item =>
    { rootId := t.rootId
      items := setAssoc t.items itemId
        { item with data := some (retitleData item.data newTitle) } }

/-- `removeItem`: delete the id from the record, then filter it out of every
remaining item's `children` list.  (Descendants of the removed item are not
touched.) -/
def removeItem (t : TreeData) (itemId : String) : TreeData :=
  let afterDelete := t.items.filter (fun e => e.1 ≠ itemId)
  { rootId := t.rootId
    items := afterDelete.map (fun e =>
      if itemId ∈ e.2.children then
        (e.1, { e.2 with children := e.2.children.filter (fun c => c ≠ itemId) })
      else e) }

/-- `handleDragEnd`: `dst = none` models a cancelled drop; otherwise
`dst = some (parentId, index?)`.  Every early `return` of the source leaves
the state untouched (the copied record is discarded), so those paths return
`t` here.  `splice(i, 0, x)` clamps the index to the length. -/
def handleDragEnd (t : TreeData) (srcParentId : String) (srcIndex : Nat)
    (dst : Option (String × Option Nat)) : TreeData :=
  match dst with
  | none => t
  | some (dstParentId, dstIndex) =>
    match lookupItem t.items srcParentId with
    | none => t
    | some sourceParent =>
      match sourceParent.children[srcIndex]? with
      | none => t
      | some sourceItemId =>
        if sourceItemId = "" then t  -- `if (!sourceItemId) return`
        else
          let newSourceChildren := sourceParent.children.eraseIdx srcIndex
          let items1 := setAssoc t.items srcParentId
            { sourceParent with children := newSourceChildren }
          match lookupItem items1 dstParentId with
          | none => t
          | some destParent =>
            let destIndex := dstIndex.getD destParent.children.length
            let newDestChildren := destParent.children.insertIdx
              (min destIndex destParent.children.length) sourceItemId
            { rootId := t.rootId
              items := setAssoc items1 dstParentId
                { destParent with children := newDestChildren } }

/-- The `validate` callback of the inline rename field:
`if (!value || value.trim() === '') return 'Title cannot be empty'`. -/
def validateTitle (value : String) : Option String :=
  if value = "" || strTrim value = "" then some "Title cannot be empty" else none

/-- The `onConfirm` callback of the inline rename field: update the title
(trimmed) only when the new text differs from the current title and is not
blank; otherwise the state is untouched. -/
def confirmRename (t : TreeData) (itemId : String) (title newTitle : String) :
    TreeData :=
  if newTitle ≠ title && strTrim newTitle ≠ "" then
    updateItemTitle t itemId (strTrim newTitle)
  else t

/-! ### Search / filter view (`filteredTreeData`) -/

/-- Character-list prefix test. -/
def isPrefixList : List Char → List Char → Bool
  | [], _ => true
  | _ :: _, [] => false
  | a :: as, b :: bs => a = b && isPrefixList as bs

/-- Character-list infix test (the empty list is an infix of everything). -/
def isInfixList : List Char → List Char → Bool
  | sub, [] => sub.isEmpty
  | sub, c :: rest => isPrefixList sub (c :: rest) || isInfixList sub rest

/-- `s.includes(sub)` on JS strings. -/
def strIncludes (s sub : String) : Bool := isInfixList sub.data s.data

/-- ASCII lower-casing of one character (the fragment of JS `toLowerCase`
exercised by the editor's titles and type names). -/
def charToLower (c : Char) : Char :=
  if 'A' ≤ c && c ≤ 'Z' then Char.ofNat (c.toNat + 32) else c

/-- `s.toLowerCase()` on a JS string (ASCII fragment). -/
def strToLower (s : String) : String := String.mk (s.data.map charToLower)

/-- `item.data?.title || ''` — the title of an item, `""` when absent. -/
def titleOf (it : TreeItem) : String :=
  match it.data with
  | some d => d.title
  | none => ""

/-- `item.data?.type || ''` — the type string of an item, `""` when absent. -/
def vtypeOf (it : TreeItem) : String :=
  match it.data with
  | some d => d.vtype.getD ""
  | none => ""

/-- `itemMatchesFilters`: the search text is compared against the item's
`title` and `type` only (exactly, or case-insensitively as a substring), and
the type filter against `type`.  The stored `value` is never examined. -/
def itemMatchesFilters (searchQuery selectedType : String) (exactMatch : Bool)
    (item : TreeItem) : Bool :=
  let title := titleOf item
  let ty := vtypeOf item
  let matchesSearch :=
    if searchQuery = "" then true
    else if exactMatch then title = searchQuery || ty = searchQuery
    else strIncludes (strToLower title) (strToLower searchQuery) ||
      strIncludes (strToLower ty) (strToLower searchQuery)
  let matchesType := selectedType = "all" || ty = selectedType
  matchesSearch && matchesType

/-- One pass of the `filterItems` recursion over a sibling id list; `recur`
is the recursion into a child list (one level deeper).  Unresolvable ids are
dropped; an item is kept — added to the accumulated record with its pruned
children and reported in the kept list — iff it matches or some descendant
was kept. -/
def filterSibs (t : TreeData) (q ty : String) (em : Bool)
    (recur : ItemsMap → List String → ItemsMap × List String) :
    ItemsMap → List String → ItemsMap × List String
  | acc, [] => (acc, [])
  | acc, itemId :: rest =>
    match lookupItem t.items itemId with
    | none => filterSibs t q ty em recur acc rest
    | some item =>
      let isMatch := itemMatchesFilters q ty em item
      let rec1 := recur acc item.children
      if isMatch || !rec1.2.isEmpty then
        let rest2 := filterSibs t q ty em recur
          (setAssoc rec1.1 itemId { item with children := rec1.2 }) rest
        (rest2.1, itemId :: rest2.2)
      else filterSibs t q ty em recur rec1.1 rest

/-- The recursive `filterItems` helper of `filteredTreeData`, with fuel
bounding the nesting depth. -/
def filterItems (t : TreeData) (q ty : String) (em : Bool) :
    Nat → ItemsMap → List String → ItemsMap × List String
  | 0 => fun acc _ => (acc, [])
  | fuel + 1 => filterSibs t q ty em (filterItems t q ty em fuel)

/-- `filteredTreeData`: the identity when no filter is active, otherwise the
pruned tree assembled from the kept items plus the root. -/
def filteredTreeData (t : TreeData) (q ty : String) (em : Bool) (fuel : Nat) :
    TreeData :=
  if q = "" && ty = "all" then t
  else
    match lookupItem t.items t.rootId with
    | none => { rootId := t.rootId, items := [] }
    | some rootItem =>
      let res := filterItems t q ty em fuel [] rootItem.children
      { rootId := t.rootId
        items := setAssoc res.1 t.rootId { rootItem with children := res.2 } }

/-! ### Node-graph editor (`node-editor.tsx`) -/

/-- The `data` payload of a react-flow node. -/
structure NodeEditorData : Type where
  label : String
  value : Option JValue
  vtype : String
deriving Repr, DecidableEq

/-- The observable outcome of a save handler: the `(firstArg, payload)` of
the `onChange` invocation (if any), whether the inline editor is still open,
and any validation message shown to the user. -/
structure SaveOutcome : Type where
  onChangeCall : Option (String × JValue)
  stillEditing : Bool
  validationError : Option String
deriving Repr, DecidableEq

/-- `ValueNode.handleSave`: unconditionally calls
`onChange(data.label || '', editValue)` with the raw edit text and closes the
editor.  No parsing, no validation message. -/
def valueNodeHandleSave (data : NodeEditorData) (editValue : String) :
    SaveOutcome :=
  { onChangeCall := some (data.label, .str editValue)
    stillEditing := false
    validationError := none }

/-- `ArrayNode.handleSave`: `JSON.parse` the edit text (`parse` models the
browser built-in); on success call `onChange` and close, on failure only log
(the editor stays open, nothing is committed, no message is rendered). -/
def arrayNodeHandleSave (parse : String → Option JValue)
    (data : NodeEditorData) (editValue : String) : SaveOutcome :=
  match parse editValue with
  | some parsed =>
    { onChangeCall := some (data.label, parsed)
      stillEditing := false
      validationError := none }
  | none =>
    { onChangeCall := none, stillEditing := true, validationError := none }

/-- A react-flow node as far as the claims are concerned. -/
structure FlowNode : Type where
  id : String
  data : NodeEditorData
deriving Repr, DecidableEq

/-- The `onChange` installed by `addNewNode`: replace the `value` of the node
whose `id` equals the first argument. -/
def updateNodesValue (nodes : List FlowNode) (nodeId : String)
    (newValue : JValue) : List FlowNode :=
  nodes.map (fun n =>
    if n.id = nodeId then { n with data := { n.data with value := some newValue } }
    else n)

/-- The `onChange` installed by `convertJsonToNodes`: it only logs
(`TODO: Implement content change propagation`), the node state is untouched. -/
def conversionOnChange (nodes : List FlowNode) (_nodeId : String)
    (_newValue : JValue) : List FlowNode := nodes

/-! ### File ingestion (`processFiles` of the file drop zone) -/

/-- The relevant fields of a browser `File`. -/
structure BrowserFile : Type where
  ftype : String
  name : String
  webkitRelativePath : String
  text : String
  size : Nat
deriving Repr, DecidableEq

/-- The editor's file record. -/
structure JSONFile : Type where
  id : String
  name : String
  path : String
  content : JValue
  originalContent : JValue
  isModified : Bool
  size : Nat
deriving Repr, DecidableEq

/-- `file.type === 'application/json' || file.name.endsWith('.json')`. -/
def isRecognizedJson (f : BrowserFile) : Bool :=
  f.ftype = "application/json" || f.name.endsWith ".json"

/-- The `JSONFile` built for a successfully parsed file, with the `k`-th
generated uuid. -/
def mkJSONFile (uuid : Nat → String) (k : Nat) (f : BrowserFile)
    (content : JValue) : JSONFile :=
  { id := uuid k
    name := f.name
    path := if f.webkitRelativePath = "" then f.name else f.webkitRelativePath
    content := content
    originalContent := content
    isModified := false
    size := f.size }

/-- `processFiles`: iterate the batch; non-JSON files are skipped, JSON files
are parsed (`parse` models `JSON.parse`, `uuid k` the `k`-th
`crypto.randomUUID()`), failures are recorded by name and the loop
continues.  Returns the loaded files and the error names, in order. -/
def processFiles (parse : String → Option JValue) (uuid : Nat → String) :
    List BrowserFile → Nat → List JSONFile × List String
  | [], _ => ([], [])
  | f :: rest, k =>
    if isRecognizedJson f then
      match parse f.text with
      | some content =>
        let r := processFiles parse uuid rest (k + 1)
        (mkJSONFile uuid k f content :: r.1, r.2)
      | none =>
        let r := processFiles parse uuid rest k
        (r.1, f.name :: r.2)
    else processFiles parse uuid rest k

/-! ### Drag/drop validity oracle

The repository delegates drop-target validation to the tree widget; no
`canDrop` exists under `src/`.  The oracle is therefore modelled from the
spec (§4.3) and checked against the source's `handleDragEnd` move. -/

/-- The (unique, under well-formedness) parent of a node: the first item
whose `children` list contains it. -/
def parentOf (items : ItemsMap) (childId : String) : Option String :=
  (items.find? (fun e => childId ∈ e.2.children)).map (fun e => e.1)

/-- Walk the parent chain upwards, collecting at most `fuel` ancestors. -/
def ancestorPathAux (items : ItemsMap) : Nat → String → List String
  | 0, _ => []
  | fuel + 1, c =>
    match parentOf items c with
    | none => []
    | some p => p :: ancestorPathAux items fuel p

/-- The ancestor path of a node back to the root. -/
def ancestorPath (t : TreeData) (id : String) : List String :=
  ancestorPathAux t.items t.items.length id

/-- Modelled from the spec: the Drag/Drop Validity Oracle of §4.3 is absent
from the repository sources (only its caller, the tree widget's drag
handling, appears); the rules below follow the spec text in order — reject
self-drops, `null`-typed targets, primitive targets, non-container targets,
and drops where the source lies on the target's ancestor path. -/
def canDrop (t : TreeData) (sourceId targetId : String) : Bool :=
  if sourceId = targetId then false
  else
    match lookupItem t.items targetId with
    | none => false
    | some target =>
      let ty := (target.data.map (fun d => d.vtype.getD "")).getD ""
      if ty = "null" then false
      else if ty = "string" || ty = "number" || ty = "boolean" then false
      else if ¬ (ty = "object" || ty = "array") then false
      else if sourceId ∈ ancestorPath t targetId then false
      else true

/-- `p` is a parent of `c` in the items record: `c` occurs in `p`'s
`children`. -/
def HasEdge (items : ItemsMap) (p c : String) : Prop :=
  ∃ it, lookupItem items p = some it ∧ c ∈ it.children

/-- `a` is a strict ancestor of `b`: a nonempty chain of child edges leads
from `a` down to `b`. -/
def Ancestor (items : ItemsMap) (a b : String) : Prop :=
  Relation.TransGen (HasEdge items) a b

/-- Well-formedness of an items record: the keys are distinct and no id
occurs twice among all the `children` lists (each node has at most one
parent and occurs at most once in it). -/
def WFItems (items : ItemsMap) : Prop :=
  (items.map (fun e => e.1)).Nodup ∧
    ((items.map (fun e => e.2.children)).flatten).Nodup

/-! ### Characterisation helpers (used to state the theorems) -/

/-- `n`-fold parent: `parentIter n c` is the `n`-th strict ancestor on the
parent chain (when the chain is long enough). -/
def parentIter (items : ItemsMap) : Nat → String → Option String
  | 0, c => some c
  | n + 1, c =>
    match parentOf items c with
    | none => none
    | some p => parentIter items n p

/-- A node matches the active filter or has a (strict) descendant within
`fuel` levels that does: exactly the condition under which `filterItems`
keeps a visited node. -/
def hasMatchF (t : TreeData) (q ty : String) (em : Bool) :
    Nat → String → Bool
  | 0, _ => false
  | fuel + 1, id =>
    match lookupItem t.items id with
    | some item =>
      itemMatchesFilters q ty em item ||
        item.children.any (hasMatchF t q ty em fuel)
    | none => false

/-- `x` is reachable from the sibling list `ids` (descending through
resolvable items, within `fuel` levels) at a node that matches or has a
matching descendant — i.e. `x` is a filter match or an ancestor of one. -/
def keptInView (t : TreeData) (q ty : String) (em : Bool) :
    Nat → List String → String → Bool
  | 0, _, _ => false
  | fuel + 1, ids, x =>
    ids.any (fun id =>
      match lookupItem t.items id with
      | some item =>
        (decide (id = x) && hasMatchF t q ty em (fuel + 1) id) ||
          keptInView t q ty em fuel item.children x
      | none => false)

/-- The filtered view references the canonical node data: an item stored for
`x` carries the id and the `data` object of the canonical item for `x`. -/
def SameData (t : TreeData) (x : String) (it : TreeItem) : Prop :=
  ∃ it0, lookupItem t.items x = some it0 ∧ it.id = it0.id ∧ it.data = it0.data

/-- Total number of occurrences of an id across all `children` lists. -/
def childOccurrences (items : ItemsMap) (x : String) : Nat :=
  ((items.map (fun e => e.2.children)).flatten).count x

/-- Index-aware map starting at position `k` (used to specify the uuid
sequence consumed by `processFiles`). -/
def mapFrom {α β : Type} (g : Nat → α → β) : Nat → List α → List β
  | _, [] => []
  | k, a :: l => g k a :: mapFrom g (k + 1) l

/-- No binding of `fs` uses the key `k`. -/
def keyNotIn (k : String) : List (String × JValue) → Bool
  | [] => true
  | f :: fs => !(f.1 = k : Bool) && keyNotIn k fs

/-- The keys of an object literal are pairwise distinct. -/
def nodupKeysB : List (String × JValue) → Bool
  | [] => true
  | f :: fs => keyNotIn f.1 fs && nodupKeysB fs

/-- Some key of the object fails the converter's numeric-title test, so the
rebuilt sibling list is classified as an object, not an array. -/
def someNonNumericKey (fs : List (String × JValue)) : Bool :=
  fs.any (fun f => !jsNumberParses (stripBrackets f.1))

mutual

/-- A JSON value that survives the tree round trip at a child position:
JS-falsy leaves are excluded (`value || {}` replaces them), object literals
need distinct keys and at least one non-numeric-looking key when nonempty
(else the rebuild reclassifies them as arrays), and the conditions recurse.
Empty arrays and objects are truthy leaves and are fine. -/
def goodChild : JValue → Bool
  | .null => false
  | .bool b => b
  | .num n => n ≠ 0
  | .str s => s ≠ ""
  | .arr xs => goodList xs
  | .obj fs =>
    fs.isEmpty ||
      (nodupKeysB fs && someNonNumericKey fs && goodFields fs)

/-- All elements are good. -/
def goodList : List JValue → Bool
  | [] => true
  | x :: xs => goodChild x && goodList xs

/-- All field values are good. -/
def goodFields : List (String × JValue) → Bool
  | [] => true
  | f :: fs => goodChild f.2 && goodFields fs

end

/-- A JSON value that survives the round trip at the root: the root must be
a nonempty array or a nonempty object (anything else produces a childless
root item, which reads back as `{}`), with good contents. -/
def goodRoot : JValue → Bool
  | .arr xs => !xs.isEmpty && goodList xs
  | .obj fs =>
    !fs.isEmpty && nodupKeysB fs && someNonNumericKey fs && goodFields fs
  | _ => false

/-- The indexed pairs the array branch of `convertItemsToJson` computes for
the ids produced by `buildArr`: the parsed title index together with the
stored item (used to characterise the rebuild of an array sibling list). -/
def arrPairs (p : String) (path : List String) :
    List JValue → Nat → List (Int × TreeItem)
  | [], _ => []
  | v :: rest, i =>
    ((i : Int),
      mkChildItem v (arrayId p i) ("[" ++ natStr i ++ "]")
        ((if hasChildrenOf v then
            buildTreeItems v (arrayId p i) (path ++ [natStr i])
          else ([], [])).2)
        (path ++ [natStr i]) path.length) :: arrPairs p path rest (i + 1)

/-! ## Association-list lemmas -/

theorem getAssoc_cons {α : Type} (e : String × α) (r : List (String × α))
    (k : String) :
    getAssoc (e :: r) k = if e.1 = k then some e.2 else getAssoc r k := by
  by_cases h : e.1 = k <;> simp [getAssoc, List.find?_cons, h]

theorem getAssoc_map_replace {α : Type} (r : List (String × α))
    (k : String) (v : α) (hp : ∃ e ∈ r, e.1 = k) :
    getAssoc (r.map (fun e => if e.1 = k then (k, v) else e)) k = some v := by
  induction r with
  | nil => simp at hp
  | cons e rest ih =>
    by_cases he : e.1 = k
    · simp [getAssoc_cons, he]
    · have hrest : ∃ e ∈ rest, e.1 = k := by
        rcases hp with ⟨w, hw, hwk⟩
        rcases List.mem_cons.mp hw with h1 | h1
        · exact absurd (h1 ▸ hwk) he
        · exact ⟨w, h1, hwk⟩
      simp [getAssoc_cons, he, ih hrest]

theorem getAssoc_map_replace_ne {α : Type} (r : List (String × α))
    (k : String) (v : α) (x : String) (h : x ≠ k) :
    getAssoc (r.map (fun e => if e.1 = k then (k, v) else e)) x
      = getAssoc r x := by
  induction r with
  | nil => rfl
  | cons e rest ih =>
    by_cases he : e.1 = k
    · have hkx : ¬ k = x := fun hh => h hh.symm
      have hex : ¬ e.1 = x := by rw [he]; exact hkx
      simp [getAssoc_cons, he, hkx, hex, ih]
    · by_cases hx : e.1 = x <;> simp [getAssoc_cons, he, hx, h, ih]

theorem getAssoc_eq_none {α : Type} (r : List (String × α)) (k : String)
    (habs : ∀ e ∈ r, ¬ e.1 = k) : getAssoc r k = none := by
  induction r with
  | nil => rfl
  | cons e rest ih =>
    simp [getAssoc_cons, habs e (List.mem_cons_self e rest),
      ih (fun e he => habs e (List.mem_cons_of_mem _ he))]

theorem getAssoc_append_single {α : Type} (r : List (String × α))
    (k : String) (v : α) (x : String) :
    getAssoc (r ++ [(k, v)]) x
      = (getAssoc r x).orElse (fun _ => if k = x then some v else none) := by
  induction r with
  | nil => simp [getAssoc_cons, getAssoc]
  | cons e rest ih =>
    by_cases hx : e.1 = x <;> simp [getAssoc_cons, hx, ih]

theorem getAssoc_setAssoc_self {α : Type} (r : List (String × α))
    (k : String) (v : α) : getAssoc (setAssoc r k v) k = some v := by
  unfold setAssoc
  by_cases hp : r.any (fun e => e.1 = k) = true
  · rw [if_pos hp]
    exact getAssoc_map_replace r k v (by simpa using hp)
  · rw [if_neg hp]
    have habs : ∀ e ∈ r, ¬ e.1 = k := by
      intro e he hek
      exact hp (List.any_eq_true.mpr ⟨e, he, by simpa using hek⟩)
    rw [getAssoc_append_single, getAssoc_eq_none r k habs]
    simp

theorem getAssoc_setAssoc_ne {α : Type} (r : List (String × α))
    (k : String) (v : α) (x : String) (h : x ≠ k) :
    getAssoc (setAssoc r k v) x = getAssoc r x := by
  unfold setAssoc
  by_cases hp : r.any (fun e => e.1 = k) = true
  · rw [if_pos hp]
    exact getAssoc_map_replace_ne r k v x h
  · rw [if_neg hp, getAssoc_append_single]
    have hkx : ¬ k = x := fun hh => h hh.symm
    cases hr : getAssoc r x <;> simp [hkx]

theorem isSome_getAssoc_setAssoc {α : Type} (r : List (String × α))
    (k : String) (v : α) (x : String) :
    (getAssoc (setAssoc r k v) x).isSome
      = (decide (x = k) || (getAssoc r x).isSome) := by
  by_cases hx : x = k
  · subst hx; simp [getAssoc_setAssoc_self]
  · simp [getAssoc_setAssoc_ne r k v x hx, hx]

/-! ## `updateItemTitle` helper lemmas (shared by several claims) -/

theorem updateItemTitle_rootId (t : TreeData) (itemId newTitle : String) :
    (updateItemTitle t itemId newTitle).rootId = t.rootId := by
  unfold updateItemTitle
  cases lookupItem t.items itemId <;> rfl

theorem updateItemTitle_of_absent (t : TreeData) (itemId newTitle : String)
    (h : lookupItem t.items itemId = none) :
    updateItemTitle t itemId newTitle = t := by
  unfold updateItemTitle
  rw [h]

theorem updateItemTitle_other (t : TreeData) (itemId newTitle other : String)
    (h : other ≠ itemId) :
    lookupItem (updateItemTitle t itemId newTitle).items other
      = lookupItem t.items other := by
  unfold updateItemTitle
  cases hl : lookupItem t.items itemId with
  | none => rfl
  | some it => exact getAssoc_setAssoc_ne _ _ _ _ h

theorem updateItemTitle_self (t : TreeData) (itemId newTitle : String)
    (it : TreeItem) (h : lookupItem t.items itemId = some it) :
    lookupItem (updateItemTitle t itemId newTitle).items itemId
      = some { it with data := some (retitleData it.data newTitle) } := by
  unfold updateItemTitle
  rw [h]
  exact getAssoc_setAssoc_self _ _ _

/-! ## Claim theorems -/

/-- C9.  File ingestion errors are isolated per file: `processFiles` returns
exactly the recognised-as-JSON files whose content parses (in order, with
consecutive uuids), and the names of the recognised files that failed to
parse; a failure never aborts the processing of the remaining files. -/
theorem c9_processFiles_isolated (parse : String → Option JValue)
    (uuid : Nat → String) (fs : List BrowserFile) (k : Nat) :
    processFiles parse uuid fs k =
      (mapFrom (fun i f => mkJSONFile uuid i f ((parse f.text).getD .null)) k
        (fs.filter (fun f => isRecognizedJson f && (parse f.text).isSome)),
       (fs.filter (fun f => isRecognizedJson f && (parse f.text).isNone)).map
         (fun f => f.name)) := by
  induction fs generalizing k with
  | nil => rfl
  | cons f rest ih =>
    by_cases hr : isRecognizedJson f = true
    · cases hp : parse f.text with
      | some content =>
        simp [processFiles, hr, hp, mapFrom, ih]
      | none =>
        simp [processFiles, hr, hp, ih]
    · have hr2 : isRecognizedJson f = false := by simpa using hr
      simp [processFiles, hr2, ih]

/-- C10.  `updateItemTitle` is single-node and frame-preserving: the root id
is kept, a missing id returns a state equal to the input, every other id
(titles included) resolves to exactly its old item, and the target item
changes only its `data.title` (id, children and flags are kept; when `data`
was present its `value`, `type` and `path` are kept too). -/
theorem c10_updateItemTitle_frame (t : TreeData) (itemId newTitle : String) :
    (updateItemTitle t itemId newTitle).rootId = t.rootId ∧
    (lookupItem t.items itemId = none →
      updateItemTitle t itemId newTitle = t) ∧
    (∀ other, other ≠ itemId →
      lookupItem (updateItemTitle t itemId newTitle).items other
        = lookupItem t.items other) ∧
    (∀ it, lookupItem t.items itemId = some it →
      lookupItem (updateItemTitle t itemId newTitle).items itemId
        = some { it with data := some (retitleData it.data newTitle) }) ∧
    (∀ d, retitleData (some d) newTitle = { d with title := newTitle }) :=
  ⟨updateItemTitle_rootId t itemId newTitle,
   updateItemTitle_of_absent t itemId newTitle,
   fun other h => updateItemTitle_other t itemId newTitle other h,
   fun it h => updateItemTitle_self t itemId newTitle it h,
   fun _ => rfl⟩

/-- Witness for C10 at the tree of `{"a": {"b": 1}}`: renaming `a` leaves
the deep child binding untouched. -/
theorem c10_updateItemTitle_frame_witness :
    lookupItem
        (updateItemTitle
          (convertToAtlassianTree (.obj [("a", .obj [("b", .num 1)])]))
          "object-root-a" "z").items "object-object-root-a-b"
      = lookupItem
          (convertToAtlassianTree (.obj [("a", .obj [("b", .num 1)])])).items
          "object-object-root-a-b" :=
  (c10_updateItemTitle_frame
      (convertToAtlassianTree (.obj [("a", .obj [("b", .num 1)])]))
      "object-root-a" "z").2.2.1 "object-object-root-a-b" (by decide)

/-- Counterexample to C3 as stated, at the tree of `{"a": {"b": 1}}`:
deleting node `a` leaves its descendant `b` in the item map (an orphan whose
parent entry is gone), contradicting the cascading delete. -/
theorem c3_removeItem_counterexample :
    lookupItem
        (removeItem (convertToAtlassianTree (.obj [("a", .obj [("b", .num 1)])]))
          "object-root-a").items "object-root-a" = none ∧
    lookupItem
        (removeItem (convertToAtlassianTree (.obj [("a", .obj [("b", .num 1)])]))
          "object-root-a").items "object-object-root-a-b" ≠ none := by
  constructor
  · decide
  · decide

/-- C3 amended.  `removeItem` deletes exactly the one node: afterwards the
id resolves to nothing and no remaining `children` list contains it, but
every other item survives with only that id filtered from its children — in
particular the descendants of the deleted node remain in the item map as
orphans. -/
theorem c3_removeItem_amended (t : TreeData) (n : String) :
    lookupItem (removeItem t n).items n = none ∧
    (∀ id it, lookupItem (removeItem t n).items id = some it →
      n ∉ it.children) ∧
    (∀ id, id ≠ n →
      lookupItem (removeItem t n).items id =
        (lookupItem t.items id).map
          (fun it => { it with children := it.children.filter (fun c => c ≠ n) })) := by
  have hmap : (removeItem t n).items
      = (t.items.filter (fun e => e.1 ≠ n)).map
          (fun e => (e.1, { e.2 with children := e.2.children.filter (fun c => c ≠ n) })) := by
    unfold removeItem
    refine List.map_congr_left ?_
    intro e _
    by_cases hmem : n ∈ e.2.children
    · rw [if_pos hmem]
    · have hfe : e.2.children.filter (fun c => c ≠ n) = e.2.children :=
        List.filter_eq_self.mpr (fun c hc => by
          have hcn : c ≠ n := fun hcn => hmem (hcn ▸ hc)
          simpa using hcn)
      rw [if_neg hmem, hfe]
  have hthird : ∀ id, id ≠ n →
      lookupItem (removeItem t n).items id =
        (lookupItem t.items id).map
          (fun it => { it with children := it.children.filter (fun c => c ≠ n) }) := by
    intro id hid
    rw [hmap]
    show getAssoc _ id = (getAssoc t.items id).map _
    induction t.items with
    | nil => rfl
    | cons e rest ih =>
      rw [List.filter_cons]
      by_cases hen : e.1 = n
      · have h1 : decide (e.1 ≠ n) = false := by simp [hen]
        have hne : ¬ e.1 = id := by rw [hen]; exact fun hh => hid hh.symm
        rw [h1]
        simp only [Bool.false_eq_true, if_false]
        rw [ih, getAssoc_cons]
        simp [hne]
      · have h1 : decide (e.1 ≠ n) = true := by simp [hen]
        rw [h1]
        simp only [if_true, List.map_cons]
        rw [getAssoc_cons, getAssoc_cons]
        by_cases heid : e.1 = id
        · simp [heid]
        · simp only [heid, if_false]
          exact ih
  have hfirst : lookupItem (removeItem t n).items n = none := by
    rw [hmap]
    apply getAssoc_eq_none
    intro e he
    rcases List.mem_map.mp he with ⟨e0, he0, rfl⟩
    show ¬ e0.1 = n
    have hp := List.of_mem_filter he0
    simpa using hp
  refine ⟨hfirst, ?_, hthird⟩
  intro id it hit
  by_cases hid : id = n
  · rw [hid] at hit
    rw [hfirst] at hit
    cases hit
  · rw [hthird id hid] at hit
    rcases Option.map_eq_some'.mp hit with ⟨it0, _, rfl⟩
    intro hmem
    have hmem2 : n ∈ it0.children.filter (fun c => c ≠ n) := hmem
    have := List.of_mem_filter hmem2
    simp at this

/-- Witness for C3 (amended) at the tree of `{"a": {"b": 1}}`: after
deleting `a`, the root no longer lists it but still resolves. -/
theorem c3_removeItem_amended_witness :
    lookupItem
        (removeItem (convertToAtlassianTree (.obj [("a", .obj [("b", .num 1)])]))
          "object-root-a").items "root"
      = (lookupItem
          (convertToAtlassianTree (.obj [("a", .obj [("b", .num 1)])])).items
          "root").map
          (fun it =>
            { it with children := it.children.filter (fun c => c ≠ "object-root-a") }) :=
  (c3_removeItem_amended
      (convertToAtlassianTree (.obj [("a", .obj [("b", .num 1)])]))
      "object-root-a").2.2 "root" (by decide)

/-- C8.  Confirming an inline rename with blank text (empty or
whitespace-only) leaves the state untouched and the validator reports
`Title cannot be empty`; text equal to the current title also leaves the
state untouched (without a message); genuinely new non-blank text replaces
the node's title by its trimmed form. -/
theorem c8_rename_validation (t : TreeData) (itemId title newTitle : String) :
    (strTrim newTitle = "" →
      confirmRename t itemId title newTitle = t ∧
        validateTitle newTitle = some "Title cannot be empty") ∧
    (newTitle = title → confirmRename t itemId title newTitle = t) ∧
    (∀ it, newTitle ≠ title → strTrim newTitle ≠ "" →
      lookupItem t.items itemId = some it →
      lookupItem (confirmRename t itemId title newTitle).items itemId =
        some { it with data := some (retitleData it.data (strTrim newTitle)) }) := by
  refine ⟨?_, ?_, ?_⟩
  · intro htrim
    constructor
    · simp [confirmRename, htrim]
    · simp [validateTitle, htrim]
  · intro heq
    simp [confirmRename, heq]
  · intro it hne htrim hit
    have hguard : confirmRename t itemId title newTitle
        = updateItemTitle t itemId (strTrim newTitle) := by
      simp [confirmRename, hne, htrim]
    rw [hguard]
    exact updateItemTitle_self t itemId (strTrim newTitle) it hit

/-- Witness for C8 at the tree of `{"a": 1}`: renaming `a` to `" b "`
stores the trimmed title `b`. -/
theorem c8_rename_validation_witness :
    lookupItem
        (confirmRename (convertToAtlassianTree (.obj [("a", .num 1)]))
          "object-root-a" "a" " b ").items "object-root-a"
      = some { (⟨"object-root-a", [],
            some ⟨"a", some (.num 1), some "number", some "a"⟩, false, true⟩ :
              TreeItem) with
          data := some (retitleData
            (some ⟨"a", some (.num 1), some "number", some "a"⟩)
            (strTrim " b ")) } :=
  (c8_rename_validation (convertToAtlassianTree (.obj [("a", .num 1)]))
      "object-root-a" "a" " b ").2.2
    ⟨"object-root-a", [], some ⟨"a", some (.num 1), some "number", some "a"⟩,
      false, true⟩
    (by decide) (by decide) (by decide)

/-- Counterexample to C5 as stated: saving the non-numeric text `abc` on a
`number`-typed value node surfaces no validation message, closes the editor,
and forwards the raw text through `onChange` — there is no rejection per the
declared type. -/
theorem c5_counterexample :
    (valueNodeHandleSave
        { label := "count", value := some (.num 5), vtype := "number" }
        "abc").validationError = none ∧
    (valueNodeHandleSave
        { label := "count", value := some (.num 5), vtype := "number" }
        "abc").onChangeCall = some ("count", .str "abc") ∧
    (valueNodeHandleSave
        { label := "count", value := some (.num 5), vtype := "number" }
        "abc").stillEditing = false := by
  exact ⟨rfl, rfl, rfl⟩

/-- C5 amended.  `ValueNode.handleSave` performs no type-based validation at
all: for every node and every edit text it closes the editor, reports no
error and calls `onChange` with the raw text and the node's *label*.  The
stored value still never changes: the converter-installed callback only
logs, and the `addNewNode` callback matches nodes by *id*, which the label
is not.  Only `ArrayNode.handleSave` validates (via `JSON.parse`), keeping
the editor open and committing nothing on failure. -/
theorem c5_value_edit_amended (data : NodeEditorData) (editValue : String)
    (nodes : List FlowNode) (parse : String → Option JValue) :
    valueNodeHandleSave data editValue =
      { onChangeCall := some (data.label, .str editValue)
        stillEditing := false
        validationError := none } ∧
    conversionOnChange nodes data.label (.str editValue) = nodes ∧
    ((∀ n ∈ nodes, n.id ≠ data.label) →
      updateNodesValue nodes data.label (.str editValue) = nodes) ∧
    (parse editValue = none →
      arrayNodeHandleSave parse data editValue =
        { onChangeCall := none, stillEditing := true, validationError := none }) := by
  refine ⟨rfl, rfl, ?_, ?_⟩
  · intro hmiss
    unfold updateNodesValue
    have hid : ∀ n ∈ nodes,
        (if n.id = data.label then
          { n with data := { n.data with value := some (.str editValue) } }
         else n) = n := fun n hn => if_neg (hmiss n hn)
    rw [List.map_congr_left hid]
    exact List.map_id nodes
  · intro hfail
    simp [arrayNodeHandleSave, hfail]

/-- Witness for C5 (amended): a node list whose single id differs from the
edited node's label is left unchanged by the save. -/
theorem c5_value_edit_amended_witness :
    updateNodesValue
        [{ id := "node-1",
           data := { label := "count", value := some (.num 5), vtype := "number" } }]
        "count" (.str "abc")
      = [{ id := "node-1",
           data := { label := "count", value := some (.num 5), vtype := "number" } }] :=
  (c5_value_edit_amended
      { label := "count", value := some (.num 5), vtype := "number" } "abc"
      [{ id := "node-1",
         data := { label := "count", value := some (.num 5), vtype := "number" } }]
      (fun _ => none)).2.2.1 (by decide)

/-! ## Counting lemmas for the drag/drop move -/

theorem childOccurrences_cons (e : String × TreeItem) (rest : ItemsMap)
    (x : String) :
    childOccurrences (e :: rest) x
      = e.2.children.count x + childOccurrences rest x := by
  simp [childOccurrences, List.count_append]

theorem count_eraseIdx_getElem (l : List String) (i : Nat) (x : String)
    (h : l[i]? = some x) :
    (l.eraseIdx i).count x + 1 = l.count x := by
  induction l generalizing i with
  | nil => simp at h
  | cons b rest ih =>
    cases i with
    | zero =>
      simp only [List.getElem?_cons_zero, Option.some.injEq] at h
      subst h
      simp [List.eraseIdx, List.count_cons]
    | succ i =>
      simp only [List.getElem?_cons_succ] at h
      have := ih i h
      simp only [List.eraseIdx, List.count_cons]
      omega

theorem count_insertIdx_self (l : List String) (n : Nat) (a : String)
    (h : n ≤ l.length) :
    (l.insertIdx n a).count a = l.count a + 1 := by
  induction l generalizing n with
  | nil =>
    have : n = 0 := Nat.le_zero.mp h
    subst this
    simp
  | cons b rest ih =>
    cases n with
    | zero => simp [List.insertIdx, List.count_cons]
    | succ n =>
      have hn : n ≤ rest.length := by simpa using h
      simp only [List.insertIdx_succ_cons, List.count_cons, ih n hn]
      omega

theorem keys_setAssoc_of_present {α : Type} (r : List (String × α))
    (k : String) (v : α) (hp : r.any (fun e => e.1 = k) = true) :
    (setAssoc r k v).map (fun e => e.1) = r.map (fun e => e.1) := by
  unfold setAssoc
  rw [if_pos hp, List.map_map]
  refine List.map_congr_left ?_
  intro e _
  by_cases he : e.1 = k <;> simp [he]

theorem any_key_of_getAssoc {α : Type} (r : List (String × α)) (k : String)
    (v : α) (h : getAssoc r k = some v) :
    r.any (fun e => e.1 = k) = true := by
  induction r with
  | nil => simp [getAssoc] at h
  | cons e rest ih =>
    rw [getAssoc_cons] at h
    by_cases he : e.1 = k
    · simp [he]
    · rw [if_neg he] at h
      simp [he, ih h]

theorem childOccurrences_setAssoc (items : ItemsMap) (k : String)
    (v it : TreeItem) (x : String)
    (hk : getAssoc items k = some it)
    (hnod : (items.map (fun e => e.1)).Nodup) :
    childOccurrences (setAssoc items k v) x + it.children.count x
      = childOccurrences items x + v.children.count x := by
  unfold setAssoc
  rw [if_pos (any_key_of_getAssoc items k it hk)]
  induction items with
  | nil => simp [getAssoc] at hk
  | cons e rest ih =>
    rw [getAssoc_cons] at hk
    simp only [List.map_cons, List.nodup_cons] at hnod
    by_cases he : e.1 = k
    · rw [if_pos he] at hk
      have hit : it = e.2 := by
        injection hk with hk
        exact hk.symm
      subst hit
      have hrest : rest.map (fun e0 => if e0.1 = k then (k, v) else e0) = rest := by
        refine List.map_congr_left (fun e0 he0 => ?_) |>.trans (List.map_id rest)
        have hne : e0.1 ≠ k := by
          intro hek
          exact hnod.1 (List.mem_map.mpr ⟨e0, he0, hek.trans he.symm⟩)
        simp [hne]
      simp only [List.map_cons, if_pos he, hrest, childOccurrences_cons]
      omega
    · rw [if_neg he] at hk
      have := ih hk hnod.2
      simp only [List.map_cons, if_neg he, childOccurrences_cons]
      omega

/-- C7.  The drag/drop move is all-or-nothing: a cancelled drop, a missing
source parent, an out-of-range source index, and a missing destination
parent all leave the tree state exactly as it was; and a completed move
preserves the number of occurrences of the moved id across all `children`
lists (in particular a well-formed tree, where it occurs exactly once, still
holds it exactly once — never zero or two places). -/
theorem c7_handleDragEnd_atomic (t : TreeData) (srcParentId : String)
    (srcIndex : Nat) :
    handleDragEnd t srcParentId srcIndex none = t ∧
    (∀ dstParentId dstIndex, lookupItem t.items srcParentId = none →
      handleDragEnd t srcParentId srcIndex (some (dstParentId, dstIndex)) = t) ∧
    (∀ dstParentId dstIndex sp, lookupItem t.items srcParentId = some sp →
      sp.children[srcIndex]? = none →
      handleDragEnd t srcParentId srcIndex (some (dstParentId, dstIndex)) = t) ∧
    (∀ dstParentId dstIndex, lookupItem t.items dstParentId = none →
      handleDragEnd t srcParentId srcIndex (some (dstParentId, dstIndex)) = t) ∧
    (∀ dstParentId dstIndex sp s,
      lookupItem t.items srcParentId = some sp →
      sp.children[srcIndex]? = some s →
      s ≠ "" →
      (lookupItem t.items dstParentId).isSome →
      (t.items.map (fun e => e.1)).Nodup →
      childOccurrences
          (handleDragEnd t srcParentId srcIndex
            (some (dstParentId, dstIndex))).items s
        = childOccurrences t.items s) := by
  refine ⟨rfl, ?_, ?_, ?_, ?_⟩
  · intro dstParentId dstIndex h
    simp only [handleDragEnd, h]
  · intro dstParentId dstIndex sp hsp hidx
    simp only [handleDragEnd, hsp, hidx]
  · intro dstParentId dstIndex hdst
    cases hsp : lookupItem t.items srcParentId with
    | none => simp only [handleDragEnd, hsp]
    | some sp =>
      cases hidx : sp.children[srcIndex]? with
      | none => simp only [handleDragEnd, hsp, hidx]
      | some s =>
        by_cases hs : s = ""
        · simp [handleDragEnd, hsp, hidx, hs]
        · have hne : dstParentId ≠ srcParentId := by
            intro hh
            rw [hh, hsp] at hdst
            cases hdst
          have hno : lookupItem
              (setAssoc t.items srcParentId
                { sp with children := sp.children.eraseIdx srcIndex })
              dstParentId = none :=
            (getAssoc_setAssoc_ne _ _ _ _ hne).trans hdst
          simp only [handleDragEnd, hsp, hidx, hs, ite_false, hno]
  · intro dstParentId dstIndex sp s hsp hidx hs hdst hnod
    have h1 := childOccurrences_setAssoc t.items srcParentId
      { sp with children := sp.children.eraseIdx srcIndex } sp s hsp hnod
    have herase := count_eraseIdx_getElem sp.children srcIndex s hidx
    have hkeys := keys_setAssoc_of_present t.items srcParentId
      { sp with children := sp.children.eraseIdx srcIndex }
      (any_key_of_getAssoc t.items srcParentId sp hsp)
    have hnod1 : ((setAssoc t.items srcParentId
        { sp with children := sp.children.eraseIdx srcIndex }).map
          (fun e => e.1)).Nodup := by
      rw [hkeys]; exact hnod
    by_cases hd : dstParentId = srcParentId
    · subst hd
      have hlook : lookupItem
          (setAssoc t.items dstParentId
            { sp with children := sp.children.eraseIdx srcIndex })
          dstParentId
        = some { sp with children := sp.children.eraseIdx srcIndex } :=
        getAssoc_setAssoc_self _ _ _
      have hres : handleDragEnd t dstParentId srcIndex
            (some (dstParentId, dstIndex))
          = { rootId := t.rootId,
              items := setAssoc
                (setAssoc t.items dstParentId
                  { sp with children := sp.children.eraseIdx srcIndex })
                dstParentId
                { sp with children :=
                    ((sp.children.eraseIdx srcIndex).insertIdx
                      (min (dstIndex.getD (sp.children.eraseIdx srcIndex).length)
                        (sp.children.eraseIdx srcIndex).length) s) } } := by
        simp only [handleDragEnd, hsp, hidx, hs, ite_false, hlook]
      rw [hres]
      have hins := count_insertIdx_self (sp.children.eraseIdx srcIndex)
        (min (dstIndex.getD (sp.children.eraseIdx srcIndex).length)
          (sp.children.eraseIdx srcIndex).length) s
        (Nat.min_le_right _ _)
      have h2 := childOccurrences_setAssoc
        (setAssoc t.items dstParentId
          { sp with children := sp.children.eraseIdx srcIndex })
        dstParentId
        { sp with children :=
            ((sp.children.eraseIdx srcIndex).insertIdx
              (min (dstIndex.getD (sp.children.eraseIdx srcIndex).length)
                (sp.children.eraseIdx srcIndex).length) s) }
        { sp with children := sp.children.eraseIdx srcIndex } s hlook hnod1
      simp only at h1 h2 hins ⊢
      omega
    · cases hdp : lookupItem t.items dstParentId with
      | none =>
        rw [hdp] at hdst
        cases hdst
      | some dp =>
        have hlook : lookupItem
            (setAssoc t.items srcParentId
              { sp with children := sp.children.eraseIdx srcIndex })
            dstParentId = some dp :=
          (getAssoc_setAssoc_ne _ _ _ _ hd).trans hdp
        have hres : handleDragEnd t srcParentId srcIndex
              (some (dstParentId, dstIndex))
            = { rootId := t.rootId,
                items := setAssoc
                  (setAssoc t.items srcParentId
                    { sp with children := sp.children.eraseIdx srcIndex })
                  dstParentId
                  { dp with children :=
                      (dp.children.insertIdx
                        (min (dstIndex.getD dp.children.length)
                          dp.children.length) s) } } := by
          simp only [handleDragEnd, hsp, hidx, hs, ite_false, hlook]
        rw [hres]
        have hins := count_insertIdx_self dp.children
          (min (dstIndex.getD dp.children.length) dp.children.length) s
          (Nat.min_le_right _ _)
        have h2 := childOccurrences_setAssoc
          (setAssoc t.items srcParentId
            { sp with children := sp.children.eraseIdx srcIndex })
          dstParentId
          { dp with children :=
              (dp.children.insertIdx
                (min (dstIndex.getD dp.children.length) dp.children.length) s) }
          dp s hlook hnod1
        simp only at h1 h2 hins ⊢
        omega

/-- Counterexample to C2 as stated: serializing a sibling list in which one
leaf stores `false` yields `{}` for that leaf (and the stored value verbatim
for the truthy leaf), not the stored value verbatim. -/
theorem c2_counterexample :
    convertItemsToJson
        [("k1", ⟨"k1", [],
            some ⟨"flag", some (.bool false), some "boolean", some "flag"⟩,
            false, true⟩),
         ("k2", ⟨"k2", [],
            some ⟨"name", some (.str "x"), some "string", some "name"⟩,
            false, true⟩)]
        1 ["k1", "k2"]
      ≠ .obj [("flag", .bool false), ("name", .str "x")] ∧
    convertItemsToJson
        [("k1", ⟨"k1", [],
            some ⟨"flag", some (.bool false), some "boolean", some "flag"⟩,
            false, true⟩),
         ("k2", ⟨"k2", [],
            some ⟨"name", some (.str "x"), some "string", some "name"⟩,
            false, true⟩)]
        1 ["k1", "k2"]
      = .obj [("flag", .obj []), ("name", .str "x")] := by
  constructor
  · decide
  · decide

/-- C2 amended.  In the object branch of `convertItemsToJson`, every listed
id that resolves contributes at its title: a node with non-empty `children`
contributes the recursive conversion of its children; a leaf contributes its
stored value only when that value is JS-truthy (non-`null`, non-`false`,
non-`0`, non-`""` — empty arrays and objects are truthy), and otherwise (or
when no value is stored) contributes the empty object `{}` instead. -/
theorem c2_convertItemsToJson_amended (items : ItemsMap) (fuel : Nat)
    (ids : List String) (id : String) (it : TreeItem)
    (hmem : id ∈ ids)
    (hlook : lookupItem items id = some it)
    (hnotarr : (ids.all (fun itemId =>
      match lookupItem items itemId with
      | some item => numericTitle item.data
      | none => false)) = false)
    (htitles : (ids.filterMap
      (fun i => (lookupItem items i).map titleOf)).Nodup) :
    ∃ fields, convertItemsToJson items (fuel + 1) ids = .obj fields ∧
      getAssoc fields (titleOf it) =
        some (if it.children.isEmpty
          then
            (match it.data with
             | some d =>
               match d.value with
               | some v => if jsTruthy v then v else .obj []
               | none => .obj []
             | none => .obj [])
          else convertItemsToJson items fuel it.children) := by
  have hne : ids.isEmpty = false := by
    cases ids with
    | nil => cases hmem
    | cons a l => rfl
  have hcontrib : (if it.children.isEmpty
        then
          (match it.data with
           | some d =>
             match d.value with
             | some v => if jsTruthy v then v else JValue.obj []
             | none => JValue.obj []
           | none => JValue.obj [])
        else convertItemsToJson items fuel it.children)
      = (if it.children.isEmpty then valueOrEmptyObj it.data
         else convertItemsToJson items fuel it.children) := by
    simp only [valueOrEmptyObj]
  rw [hcontrib]
  simp only [convertItemsToJson, hne, Bool.false_eq_true, if_false, hnotarr]
  refine ⟨_, rfl, ?_⟩
  have untouched : ∀ (ids2 : List String) (acc : List (String × JValue))
      (k : String),
      (∀ i ∈ ids2, ∀ iti, lookupItem items i = some iti → titleOf iti ≠ k) →
      getAssoc
        (List.foldl (fun acc itemId =>
          match lookupItem items itemId with
          | none => acc
          | some item =>
            setAssoc acc
              (match item.data with
               | some d => d.title
               | none => "")
              (if item.children.isEmpty then valueOrEmptyObj item.data
               else convertItemsToJson items fuel item.children)) acc ids2) k
        = getAssoc acc k := by
    intro ids2
    induction ids2 with
    | nil => intro acc k _; rfl
    | cons j rest ih =>
      intro acc k hnotouch
      rw [List.foldl_cons]
      cases hj : lookupItem items j with
      | none =>
        simp only [hj]
        exact ih _ k (fun i hi => hnotouch i (List.mem_cons_of_mem _ hi))
      | some itj =>
        simp only [hj]
        rw [ih _ k (fun i hi => hnotouch i (List.mem_cons_of_mem _ hi))]
        exact getAssoc_setAssoc_ne _ _ _ _
          (fun hk => hnotouch j (List.mem_cons_self j rest) itj hj hk.symm)
  have key : ∀ (ids2 : List String) (acc : List (String × JValue)),
      id ∈ ids2 →
      (ids2.filterMap (fun i => (lookupItem items i).map titleOf)).Nodup →
      getAssoc
        (List.foldl (fun acc itemId =>
          match lookupItem items itemId with
          | none => acc
          | some item =>
            setAssoc acc
              (match item.data with
               | some d => d.title
               | none => "")
              (if item.children.isEmpty then valueOrEmptyObj item.data
               else convertItemsToJson items fuel item.children)) acc ids2)
          (titleOf it)
        = some (if it.children.isEmpty then valueOrEmptyObj it.data
            else convertItemsToJson items fuel it.children) := by
    intro ids2
    induction ids2 with
    | nil => intro acc h; cases h
    | cons j rest ih =>
      intro acc hmem2 hnod2
      rw [List.foldl_cons]
      cases hj : lookupItem items j with
      | none =>
        simp only [hj]
        have hidr : id ∈ rest := by
          rcases List.mem_cons.mp hmem2 with h | h
          · rw [h] at hlook
            rw [hj] at hlook
            cases hlook
          · exact h
        refine ih _ hidr ?_
        have : (List.filterMap (fun i => (lookupItem items i).map titleOf)
            (j :: rest))
            = List.filterMap (fun i => (lookupItem items i).map titleOf) rest := by
          rw [List.filterMap_cons]
          simp [hj]
        rw [this] at hnod2
        exact hnod2
      | some itj =>
        simp only [hj]
        have hsplit : (List.filterMap (fun i => (lookupItem items i).map titleOf)
            (j :: rest))
            = titleOf itj
              :: List.filterMap (fun i => (lookupItem items i).map titleOf) rest := by
          rw [List.filterMap_cons]
          simp [hj]
        rw [hsplit, List.nodup_cons] at hnod2
        by_cases hjid : j = id
        · have hit : itj = it := by
            rw [hjid, hlook] at hj
            injection hj with hj
            exact hj.symm
          subst hit
          rw [untouched rest _ (titleOf itj) ?_]
          · show getAssoc (setAssoc acc (titleOf itj) _) (titleOf itj) = _
            exact getAssoc_setAssoc_self _ _ _
          · intro i hi iti hlooki hk
            exact hnod2.1 (List.mem_filterMap.mpr
              ⟨i, hi, by rw [hlooki]; simp [hk]⟩)
        · have hidr : id ∈ rest := by
            rcases List.mem_cons.mp hmem2 with h | h
            · exact absurd h.symm hjid
            · exact h
          exact ih _ hidr hnod2.2
  exact key ids [] hmem htitles

/-- Witness for C2 (amended): the `false`-valued leaf `flag` contributes
`{}`. -/
theorem c2_convertItemsToJson_amended_witness :
    ∃ fields,
      convertItemsToJson
          [("k1", ⟨"k1", [],
              some ⟨"flag", some (.bool false), some "boolean", some "flag"⟩,
              false, true⟩),
           ("k2", ⟨"k2", [],
              some ⟨"name", some (.str "x"), some "string", some "name"⟩,
              false, true⟩)]
          1 ["k1", "k2"] = .obj fields ∧
      getAssoc fields "flag" = some (.obj []) :=
  c2_convertItemsToJson_amended
    [("k1", ⟨"k1", [],
        some ⟨"flag", some (.bool false), some "boolean", some "flag"⟩,
        false, true⟩),
     ("k2", ⟨"k2", [],
        some ⟨"name", some (.str "x"), some "string", some "name"⟩,
        false, true⟩)]
    0 ["k1", "k2"] "k1"
    ⟨"k1", [], some ⟨"flag", some (.bool false), some "boolean", some "flag"⟩,
      false, true⟩
    (by decide) (by decide) (by decide) (by decide)

/-! ## Graph lemmas for the drag/drop oracle (C4)

`ancestorPathAux` walks the (unique, in a well-formed record) parent chain;
the lemmas below connect that walk with reachability through `children`
edges: every strict ancestor is found by the walk within `items.length`
steps (a pigeonhole argument caps the chain length), so rule 5 of the
oracle really excludes every ancestor. -/

theorem getAssoc_mem_entry {α : Type} (r : List (String × α)) (k : String)
    (v : α) (h : getAssoc r k = some v) : (k, v) ∈ r := by
  induction r with
  | nil => simp [getAssoc] at h
  | cons e rest ih =>
    rw [getAssoc_cons] at h
    by_cases hek : e.1 = k
    · rw [if_pos hek] at h
      injection h with h
      exact List.mem_cons.mpr (Or.inl (by rw [← hek, ← h]))
    · rw [if_neg hek] at h
      exact List.mem_cons_of_mem _ (ih h)

theorem mem_entry_getAssoc {α : Type} (r : List (String × α)) (k : String)
    (v : α) (hnod : (r.map (fun e => e.1)).Nodup) (hm : (k, v) ∈ r) :
    getAssoc r k = some v := by
  induction r with
  | nil => cases hm
  | cons e rest ih =>
    simp only [List.map_cons, List.nodup_cons] at hnod
    rcases List.mem_cons.mp hm with h | h
    · rw [← h, getAssoc_cons, if_pos rfl]
    · have hek : ¬ e.1 = k := by
        intro hek
        exact hnod.1 (List.mem_map.mpr ⟨(k, v), h, hek.symm⟩)
      rw [getAssoc_cons, if_neg hek]
      exact ih hnod.2 h

/-- In a record whose flattened children lists are duplicate-free, an id
contained in the children of one entry occurs in no other entry's children. -/
theorem occ_unique (items : ItemsMap) (s : String)
    (hflat : ((items.map (fun e => e.2.children)).flatten).Nodup)
    (pre post : ItemsMap) (e : String × TreeItem)
    (hsplit : items = pre ++ e :: post) (hs : s ∈ e.2.children) :
    ∀ e2 ∈ pre ++ post, s ∉ e2.2.children := by
  subst hsplit
  intro e2 he2 hs2
  have hcount := List.nodup_iff_count_le_one.mp hflat s
  have h1 : 1 ≤ List.count s e.2.children := List.one_le_count_iff.mpr hs
  have h2 : 1 ≤ List.count s e2.2.children := List.one_le_count_iff.mpr hs2
  rcases List.mem_append.mp he2 with h | h
  · have hdecomp : ((pre ++ e :: post).map (fun e => e.2.children)).flatten
        = (pre.map (fun e => e.2.children)).flatten ++
          (e.2.children ++ ((post.map (fun e => e.2.children)).flatten)) := by
      simp [List.flatten_append]
    have hsub2 : e2.2.children.Sublist (pre.map (fun e => e.2.children)).flatten :=
      List.sublist_flatten_of_mem (List.mem_map.mpr ⟨e2, h, rfl⟩)
    have hc2 : 1 ≤ List.count s ((pre.map (fun e => e.2.children)).flatten) :=
      le_trans h2 (hsub2.count_le s)
    rw [hdecomp, List.count_append, List.count_append] at hcount
    omega
  · have hdecomp : ((pre ++ e :: post).map (fun e => e.2.children)).flatten
        = ((pre.map (fun e => e.2.children)).flatten ++ e.2.children) ++
          ((post.map (fun e => e.2.children)).flatten) := by
      simp [List.flatten_append]
    have hsub2 : e2.2.children.Sublist (post.map (fun e => e.2.children)).flatten :=
      List.sublist_flatten_of_mem (List.mem_map.mpr ⟨e2, h, rfl⟩)
    have hc2 : 1 ≤ List.count s ((post.map (fun e => e.2.children)).flatten) :=
      le_trans h2 (hsub2.count_le s)
    rw [hdecomp, List.count_append, List.count_append] at hcount
    omega

/-- Each individual children list of a well-formed record is duplicate-free. -/
theorem children_nodup (items : ItemsMap)
    (hflat : ((items.map (fun e => e.2.children)).flatten).Nodup)
    (e : String × TreeItem) (he : e ∈ items) : e.2.children.Nodup := by
  have hsub : e.2.children.Sublist
      ((items.map (fun e => e.2.children)).flatten) :=
    List.sublist_flatten_of_mem (List.mem_map.mpr ⟨e, he, rfl⟩)
  exact hflat.sublist hsub

/-- `find?` skips a prefix on which the predicate is everywhere false. -/
theorem find?_append_all_false {α : Type} (p : α → Bool) :
    ∀ (pre rest : List α), (∀ x ∈ pre, p x = false) →
      List.find? p (pre ++ rest) = List.find? p rest := by
  intro pre
  induction pre with
  | nil => intro rest _; rfl
  | cons x pre0 ih =>
    intro rest hfalse
    rw [List.cons_append, List.find?_cons,
      hfalse x (List.mem_cons_self x pre0)]
    exact ih rest (fun y hy => hfalse y (List.mem_cons_of_mem _ hy))

/-- With duplicate-free flattened children, the child edge determines the
parent: `parentOf` finds exactly the edge's source. -/
theorem parentOf_eq_of_hasEdge (items : ItemsMap) (p c : String)
    (hflat : ((items.map (fun e => e.2.children)).flatten).Nodup)
    (h : HasEdge items p c) : parentOf items c = some p := by
  rcases h with ⟨it, hlook, hmem⟩
  have hentry : (p, it) ∈ items := getAssoc_mem_entry items p it hlook
  rcases List.append_of_mem hentry with ⟨pre, post, hsplit⟩
  have hocc := occ_unique items c hflat pre post (p, it) hsplit hmem
  unfold parentOf
  rw [hsplit]
  rw [find?_append_all_false _ pre ((p, it) :: post) ?_]
  · rw [List.find?_cons]
    have hc : (decide (c ∈ (p, it).2.children)) = true := by simpa using hmem
    rw [hc]
    rfl
  · intro x hx
    have hx2 : c ∉ x.2.children :=
      hocc x (List.mem_append.mpr (Or.inl hx))
    simpa using hx2

/-- Conversely, `parentOf` always returns a real edge. -/
theorem hasEdge_of_parentOf (items : ItemsMap) (p c : String)
    (hkeys : (items.map (fun e => e.1)).Nodup)
    (h : parentOf items c = some p) : HasEdge items p c := by
  unfold parentOf at h
  cases hf : items.find? (fun e => c ∈ e.2.children) with
  | none => rw [hf] at h; cases h
  | some e =>
    rw [hf] at h
    injection h with h
    have hmem : e ∈ items := List.mem_of_find?_eq_some hf
    have hc : c ∈ e.2.children := by
      have := List.find?_some hf
      simpa using this
    refine ⟨e.2, ?_, hc⟩
    have : (e.1, e.2) ∈ items := by simpa using hmem
    rw [lookupItem, ← h]
    exact mem_entry_getAssoc items e.1 e.2 hkeys this

theorem parentIter_add (items : ItemsMap) (a b : Nat) (c : String) :
    parentIter items (a + b) c
      = match parentIter items a c with
        | none => none
        | some m => parentIter items b m := by
  induction a generalizing c with
  | zero => simp [parentIter]
  | succ a ih =>
    rw [show a + 1 + b = (a + b) + 1 from by omega]
    rw [show parentIter items ((a + b) + 1) c
        = (match parentOf items c with
           | none => none
           | some p => parentIter items (a + b) p) from rfl]
    rw [show parentIter items (a + 1) c
        = (match parentOf items c with
           | none => none
           | some p => parentIter items a p) from rfl]
    cases parentOf items c with
    | none => rfl
    | some p => exact ih p

theorem ancestorPathAux_length (items : ItemsMap) :
    ∀ (n : Nat) (c p : String), parentIter items n c = some p →
      (ancestorPathAux items n c).length = n := by
  intro n
  induction n with
  | zero => intro c p _; rfl
  | succ n ih =>
    intro c p h
    rw [show parentIter items (n + 1) c
        = (match parentOf items c with
           | none => none
           | some q => parentIter items n q) from rfl] at h
    cases hq : parentOf items c with
    | none => rw [hq] at h; cases h
    | some q =>
      rw [hq] at h
      simp only [ancestorPathAux, hq, List.length_cons]
      rw [ih q p h]

theorem parentIter_of_ancestorPathAux_split (items : ItemsMap) :
    ∀ (l1 : List String) (n : Nat) (c a : String) (l2 : List String),
      ancestorPathAux items n c = l1 ++ a :: l2 →
      parentIter items (l1.length + 1) c = some a := by
  intro l1
  induction l1 with
  | nil =>
    intro n c a l2 h
    cases n with
    | zero => cases h
    | succ n =>
      simp only [ancestorPathAux] at h
      cases hq : parentOf items c with
      | none => rw [hq] at h; cases h
      | some q =>
        rw [hq] at h
        simp only [List.nil_append] at h
        injection h with h1 _
        show (match parentOf items c with
          | none => none
          | some p => parentIter items 0 p) = some a
        rw [hq, h1]
        rfl
  | cons b l1 ih =>
    intro n c a l2 h
    cases n with
    | zero => cases h
    | succ n =>
      simp only [ancestorPathAux] at h
      cases hq : parentOf items c with
      | none => rw [hq] at h; cases h
      | some q =>
        rw [hq] at h
        simp only [List.cons_append] at h
        injection h with h1 h2
        show (match parentOf items c with
          | none => none
          | some p => parentIter items (b :: l1).length p) = some a
        rw [hq]
        show parentIter items (l1.length + 1) q = some a
        exact ih n q a l2 h2

theorem mem_ancestorPathAux_of_parentIter (items : ItemsMap) :
    ∀ (n : Nat) (fuel : Nat) (c p : String),
      parentIter items n c = some p → 1 ≤ n → n ≤ fuel →
      p ∈ ancestorPathAux items fuel c := by
  intro n
  induction n with
  | zero => intro fuel c p _ h1 _; cases h1
  | succ n ih =>
    intro fuel c p h _ hle
    rw [show parentIter items (n + 1) c
        = (match parentOf items c with
           | none => none
           | some q => parentIter items n q) from rfl] at h
    cases hq : parentOf items c with
    | none => rw [hq] at h; cases h
    | some q =>
      rw [hq] at h
      cases fuel with
      | zero => omega
      | succ fuel =>
        simp only [ancestorPathAux, hq]
        cases n with
        | zero =>
          injection h with h
          rw [h]
          exact List.mem_cons_self _ _
        | succ n =>
          exact List.mem_cons_of_mem _ (ih fuel q p h (by omega) (by omega))

theorem count_two_split {α : Type} [DecidableEq α] :
    ∀ (l : List α) (a : α), 2 ≤ l.count a →
      ∃ l1 l2 l3, l = l1 ++ a :: l2 ++ a :: l3 := by
  intro l
  induction l with
  | nil => intro a h; simp at h
  | cons b rest ih =>
    intro a h
    rcases eq_or_ne a b with hab | hab
    · rw [← hab, List.count_cons_self] at h
      have hmem : a ∈ rest := by
        have h1 : 1 ≤ List.count a rest := by omega
        exact List.one_le_count_iff.mp h1
      rcases List.append_of_mem hmem with ⟨l2, l3, hsplit⟩
      exact ⟨[], l2, l3, by rw [hsplit, ← hab]; simp⟩
    · rw [List.count_cons_of_ne hab] at h
      rcases ih a h with ⟨l1, l2, l3, hsplit⟩
      exact ⟨b :: l1, l2, l3, by rw [hsplit]; simp⟩

theorem parentOf_mem_keys (items : ItemsMap) (c p : String)
    (h : parentOf items c = some p) : p ∈ items.map (fun e => e.1) := by
  unfold parentOf at h
  cases hf : items.find? (fun e => c ∈ e.2.children) with
  | none => rw [hf] at h; cases h
  | some e =>
    rw [hf] at h
    injection h with h
    exact List.mem_map.mpr ⟨e, List.mem_of_find?_eq_some hf, h⟩

theorem ancestorPathAux_subset_keys (items : ItemsMap) :
    ∀ (n : Nat) (c : String), ∀ x ∈ ancestorPathAux items n c,
      x ∈ items.map (fun e => e.1) := by
  intro n
  induction n with
  | zero => intro c x hx; cases hx
  | succ n ih =>
    intro c x hx
    simp only [ancestorPathAux] at hx
    cases hq : parentOf items c with
    | none => rw [hq] at hx; cases hx
    | some q =>
      rw [hq] at hx
      rcases List.mem_cons.mp hx with h | h
      · rw [h]; exact parentOf_mem_keys items c q hq
      · exact ih q x h

/-- Pigeonhole: a realised parent chain can always be shortened to at most
`items.length` steps. -/
theorem parentIter_shorten (items : ItemsMap) :
    ∀ (n : Nat) (c p : String), parentIter items n c = some p → 1 ≤ n →
      ∃ m, 1 ≤ m ∧ m ≤ items.length ∧ parentIter items m c = some p := by
  intro n
  induction n using Nat.strong_induction_on with
  | _ n ihn =>
    intro c p h h1
    by_cases hle : n ≤ items.length
    · exact ⟨n, h1, hle, h⟩
    · have hlen : (ancestorPathAux items n c).length = n :=
        ancestorPathAux_length items n c p h
      have hnotnodup : ¬ (ancestorPathAux items n c).Nodup := by
        intro hnod
        have hsub : ancestorPathAux items n c ⊆ items.map (fun e => e.1) :=
          fun x hx => ancestorPathAux_subset_keys items n c x hx
        have hsp := (hnod.subperm hsub).length_le
        rw [hlen, List.length_map] at hsp
        omega
      have hdup : ∃ a, 2 ≤ (ancestorPathAux items n c).count a := by
        by_contra hno
        push_neg at hno
        exact hnotnodup (List.nodup_iff_count_le_one.mpr
          (fun a => by have := hno a; omega))
      rcases hdup with ⟨a, ha⟩
      rcases count_two_split _ a ha with ⟨l1, l2, l3, hsplit⟩
      have hi : parentIter items (l1.length + 1) c = some a :=
        parentIter_of_ancestorPathAux_split items l1 n c a (l2 ++ a :: l3)
          (by rw [hsplit]; simp)
      have hj : parentIter items ((l1 ++ a :: l2).length + 1) c = some a :=
        parentIter_of_ancestorPathAux_split items (l1 ++ a :: l2) n c a l3
          (by rw [hsplit])
      have hn : n = l1.length + l2.length + l3.length + 2 := by
        rw [← hlen, hsplit]
        simp
        ring
      have hjlen : (l1 ++ a :: l2).length + 1 = l1.length + l2.length + 2 := by
        simp
        omega
      rw [hjlen] at hj
      have hrest : parentIter items (n - (l1.length + l2.length + 2)) a
          = some p := by
        have := parentIter_add items (l1.length + l2.length + 2)
          (n - (l1.length + l2.length + 2)) c
        rw [show l1.length + l2.length + 2 + (n - (l1.length + l2.length + 2))
            = n from by omega] at this
        rw [h, hj] at this
        exact this.symm
      have hshort : parentIter items
          ((l1.length + 1) + (n - (l1.length + l2.length + 2))) c = some p := by
        rw [parentIter_add, hi]
        exact hrest
      refine ihn ((l1.length + 1) + (n - (l1.length + l2.length + 2)))
        (by omega) c p hshort (by omega)

theorem parentIter_succ (items : ItemsMap) (n : Nat) (c p : String)
    (h : parentOf items c = some p) :
    parentIter items (n + 1) c = parentIter items n p := by
  show (match parentOf items c with
    | none => none
    | some q => parentIter items n q) = parentIter items n p
  rw [h]

/-- Every strict-ancestor chain is realised by some number of `parentOf`
steps (with duplicate-free flattened children). -/
theorem parentIter_of_ancestor (items : ItemsMap) (p c : String)
    (hflat : ((items.map (fun e => e.2.children)).flatten).Nodup)
    (h : Relation.TransGen (HasEdge items) p c) :
    ∃ n, 1 ≤ n ∧ parentIter items n c = some p := by
  induction h with
  | single hedge =>
    exact ⟨1, Nat.le_refl 1,
      (parentIter_succ items 0 _ _
        (parentOf_eq_of_hasEdge items _ _ hflat hedge)).trans rfl⟩
  | tail htg hedge ih =>
    rcases ih with ⟨n, h1, hit⟩
    exact ⟨n + 1, by omega,
      (parentIter_succ items n _ _
        (parentOf_eq_of_hasEdge items _ _ hflat hedge)).trans hit⟩

/-- A strict ancestor always shows up on the (fuel-bounded) ancestor path
that the oracle inspects. -/
theorem mem_ancestorPathAux_of_ancestor (items : ItemsMap) (p c : String)
    (hflat : ((items.map (fun e => e.2.children)).flatten).Nodup)
    (h : Ancestor items p c) :
    p ∈ ancestorPathAux items items.length c := by
  rcases parentIter_of_ancestor items p c hflat h with ⟨n, h1, hit⟩
  rcases parentIter_shorten items n c p hit h1 with ⟨m, hm1, hmle, hmit⟩
  exact mem_ancestorPathAux_of_parentIter items m items.length c p hmit hm1 hmle

/-- What a successful `canDrop` guarantees: distinct ids, a resolvable
target, and the source off the target's ancestor path. -/
theorem canDrop_spec (t : TreeData) (s dst : String)
    (h : canDrop t s dst = true) :
    s ≠ dst ∧ (∃ target, lookupItem t.items dst = some target) ∧
      s ∉ ancestorPath t dst := by
  by_cases h1 : s = dst
  · unfold canDrop at h
    rw [if_pos h1] at h
    cases h
  · unfold canDrop at h
    rw [if_neg h1] at h
    cases hl : lookupItem t.items dst with
    | none => rw [hl] at h; simp at h
    | some target =>
      rw [hl] at h
      refine ⟨h1, ⟨target, rfl⟩, ?_⟩
      intro hmem
      simp [hmem] at h

/-- Abstract acyclicity argument: if every edge of the updated record is an
old edge or the single new edge `dstParent → s`, the new edge is the only
in-edge of `s`, and `s` was not on the old ancestor path of `dstParent`,
then `s` is not an ancestor of itself in the updated record. -/
theorem no_cycle_core (old new : ItemsMap) (s dstParent : String)
    (hflat : ((old.map (fun e => e.2.children)).flatten).Nodup)
    (hsub : ∀ p c, HasEdge new p c →
      HasEdge old p c ∨ (p = dstParent ∧ c = s))
    (huniq : ∀ p, HasEdge new p s → p = dstParent)
    (hne : s ≠ dstParent)
    (hnanc : s ∉ ancestorPathAux old old.length dstParent) :
    ¬ Relation.TransGen (HasEdge new) s s := by
  intro hcyc
  rcases Relation.TransGen.tail'_iff.mp hcyc with ⟨p, hrt, hedge⟩
  have hp : p = dstParent := huniq p hedge
  rw [hp] at hrt
  rcases Relation.reflTransGen_iff_eq_or_transGen.mp hrt with heq | htg
  · exact hne heq.symm
  · have main : ∀ a, Relation.TransGen (HasEdge new) a dstParent →
        Relation.TransGen (HasEdge old) a dstParent ∨
          Relation.TransGen (HasEdge old) s dstParent := by
      intro a ha
      induction ha using Relation.TransGen.head_induction_on with
      | base h =>
        rcases hsub _ _ h with h0 | ⟨_, hcs⟩
        · exact Or.inl (Relation.TransGen.single h0)
        · exact absurd hcs.symm hne
      | ih h1 h2 ih =>
        rcases hsub _ _ h1 with h0 | ⟨_, hcs⟩
        · rcases ih with hc | hs2
          · exact Or.inl (Relation.TransGen.head h0 hc)
          · exact Or.inr hs2
        · rcases ih with hc | hs2
          · exact Or.inr (hcs ▸ hc)
          · exact Or.inr hs2
    have hconv : Relation.TransGen (HasEdge old) s dstParent := by
      rcases main s htg with h | h <;> exact h
    exact hnanc (mem_ancestorPathAux_of_ancestor old s dstParent hflat hconv)

/-- C4.  Cycle freedom of drag-and-drop: when the validity oracle accepts
the pair (`canDrop t s dstParent = true`), completing the move of `s` (found
at `srcIndex` under its parent `srcParentId`) to the new parent `dstParent`
via `handleDragEnd` yields a tree in which `s` is not an ancestor of itself
— the oracle's ancestor-path test really does rule out every cycle through
the moved node, because a well-formed tree gives the moved node exactly one
in-edge, which the move re-targets at the accepted destination. -/
theorem c4_canDrop_no_cycle (t : TreeData) (s srcParentId dstParent : String)
    (srcIndex : Nat) (dstIndex : Option Nat) (sp : TreeItem)
    (hwf : WFItems t.items)
    (hsp : lookupItem t.items srcParentId = some sp)
    (hidx : sp.children[srcIndex]? = some s)
    (hs0 : ¬ s = "")
    (hcd : canDrop t s dstParent = true) :
    ¬ Ancestor
        (handleDragEnd t srcParentId srcIndex
          (some (dstParent, dstIndex))).items s s := by
  obtain ⟨hkeys, hflat⟩ := hwf
  obtain ⟨hne, ⟨target, htarget⟩, hnanc⟩ := canDrop_spec t s dstParent hcd
  obtain ⟨dp, hdp, hdpc⟩ : ∃ dp,
      lookupItem (setAssoc t.items srcParentId
        { sp with children := sp.children.eraseIdx srcIndex }) dstParent
          = some dp ∧
      ∀ x ∈ dp.children, HasEdge t.items dstParent x := by
    by_cases hd : dstParent = srcParentId
    · subst hd
      refine ⟨{ sp with children := sp.children.eraseIdx srcIndex },
        getAssoc_setAssoc_self _ _ _, ?_⟩
      intro x hx
      have hx2 : x ∈ sp.children.eraseIdx srcIndex := hx
      exact ⟨sp, hsp, (List.eraseIdx_sublist _ _).subset hx2⟩
    · exact ⟨target, (getAssoc_setAssoc_ne _ _ _ _ hd).trans htarget,
        fun x hx => ⟨target, htarget, hx⟩⟩
  have hres : handleDragEnd t srcParentId srcIndex
        (some (dstParent, dstIndex))
      = { rootId := t.rootId,
          items := setAssoc
            (setAssoc t.items srcParentId
              { sp with children := sp.children.eraseIdx srcIndex })
            dstParent
            { dp with children :=
                (dp.children.insertIdx
                  (min (dstIndex.getD dp.children.length)
                    dp.children.length) s) } } := by
    simp only [handleDragEnd, hsp, hidx, hs0, ite_false, hdp]
  have hsub : ∀ p c, HasEdge
        (setAssoc
          (setAssoc t.items srcParentId
            { sp with children := sp.children.eraseIdx srcIndex })
          dstParent
          { dp with children :=
              (dp.children.insertIdx
                (min (dstIndex.getD dp.children.length)
                  dp.children.length) s) }) p c →
      HasEdge t.items p c ∨ (p = dstParent ∧ c = s) := by
    intro p c hpc
    rcases hpc with ⟨it, hlook, hmemc⟩
    by_cases hpd : p = dstParent
    · rw [hpd] at hlook
      simp only [lookupItem] at hlook
      rw [getAssoc_setAssoc_self] at hlook
      injection hlook with hit
      subst hit
      have hm2 : c ∈ dp.children.insertIdx
          (min (dstIndex.getD dp.children.length) dp.children.length) s :=
        hmemc
      rcases (List.mem_insertIdx (Nat.min_le_right _ _)).mp hm2 with hcs | hcd2
      · exact Or.inr ⟨hpd, hcs⟩
      · exact Or.inl (hpd ▸ hdpc c hcd2)
    · by_cases hps : p = srcParentId
      · have hpd2 : ¬ srcParentId = dstParent := hps ▸ hpd
        rw [hps] at hlook
        simp only [lookupItem] at hlook
        rw [getAssoc_setAssoc_ne _ _ _ _ hpd2, getAssoc_setAssoc_self] at hlook
        injection hlook with hit
        subst hit
        have hm2 : c ∈ sp.children.eraseIdx srcIndex := hmemc
        refine Or.inl ⟨sp, ?_, (List.eraseIdx_sublist _ _).subset hm2⟩
        rw [hps]
        exact hsp
      · simp only [lookupItem] at hlook
        rw [getAssoc_setAssoc_ne _ _ _ _ hpd,
          getAssoc_setAssoc_ne _ _ _ _ hps] at hlook
        exact Or.inl ⟨it, hlook, hmemc⟩
  have huniq : ∀ p, HasEdge
        (setAssoc
          (setAssoc t.items srcParentId
            { sp with children := sp.children.eraseIdx srcIndex })
          dstParent
          { dp with children :=
              (dp.children.insertIdx
                (min (dstIndex.getD dp.children.length)
                  dp.children.length) s) }) p s →
      p = dstParent := by
    intro p hp
    rcases hp with ⟨it, hlook, hmems⟩
    by_cases hpd : p = dstParent
    · exact hpd
    exfalso
    by_cases hps : p = srcParentId
    · have hpd2 : ¬ srcParentId = dstParent := hps ▸ hpd
      rw [hps] at hlook
      simp only [lookupItem] at hlook
      rw [getAssoc_setAssoc_ne _ _ _ _ hpd2, getAssoc_setAssoc_self] at hlook
      injection hlook with hit
      subst hit
      have hm2 : s ∈ sp.children.eraseIdx srcIndex := hmems
      have hcnt : (sp.children.eraseIdx srcIndex).count s + 1
          = sp.children.count s :=
        count_eraseIdx_getElem sp.children srcIndex s hidx
      have hsubl : List.Sublist sp.children
          ((t.items.map (fun e => e.2.children)).flatten) :=
        List.sublist_flatten_of_mem (List.mem_map.mpr
          ⟨(srcParentId, sp), getAssoc_mem_entry t.items srcParentId sp hsp,
            rfl⟩)
      have hle1 : sp.children.count s ≤ 1 :=
        le_trans (hsubl.count_le s) ((List.nodup_iff_count_le_one.mp hflat) s)
      have hge1 : 1 ≤ (sp.children.eraseIdx srcIndex).count s :=
        List.one_le_count_iff.mpr hm2
      omega
    · simp only [lookupItem] at hlook
      rw [getAssoc_setAssoc_ne _ _ _ _ hpd,
        getAssoc_setAssoc_ne _ _ _ _ hps] at hlook
      have h1 : parentOf t.items s = some p :=
        parentOf_eq_of_hasEdge t.items p s hflat ⟨it, hlook, hmems⟩
      have h2 : parentOf t.items s = some srcParentId :=
        parentOf_eq_of_hasEdge t.items srcParentId s hflat
          ⟨sp, hsp, List.getElem?_mem hidx⟩
      rw [h1] at h2
      injection h2 with h2
      exact hps h2
  have hnanc2 : s ∉ ancestorPathAux t.items t.items.length dstParent := hnanc
  rw [hres]
  exact no_cycle_core t.items _ s dstParent hflat hsub huniq hne hnanc2

/-- Witness for C4 at a concrete three-node tree: the oracle accepts moving
the leaf `"b"` under the object node `"c"`, and the theorem yields the
absence of a cycle through `"b"` in the reparented tree. -/
theorem c4_canDrop_no_cycle_witness :
    canDrop
        ⟨"root",
         [("root", ⟨"root", ["b", "c"], none, true, true⟩),
          ("b", ⟨"b", [], some ⟨"b", some (.num 1), some "number", some "b"⟩,
            false, true⟩),
          ("c", ⟨"c", [], some ⟨"c", some (.obj []), some "object", none⟩,
            false, true⟩)]⟩
        "b" "c" = true ∧
    ¬ Ancestor
        (handleDragEnd
          ⟨"root",
           [("root", ⟨"root", ["b", "c"], none, true, true⟩),
            ("b", ⟨"b", [], some ⟨"b", some (.num 1), some "number", some "b"⟩,
              false, true⟩),
            ("c", ⟨"c", [], some ⟨"c", some (.obj []), some "object", none⟩,
              false, true⟩)]⟩
          "root" 0 (some ("c", none))).items "b" "b" :=
  ⟨by decide,
   c4_canDrop_no_cycle
     ⟨"root",
      [("root", ⟨"root", ["b", "c"], none, true, true⟩),
       ("b", ⟨"b", [], some ⟨"b", some (.num 1), some "number", some "b"⟩,
         false, true⟩),
       ("c", ⟨"c", [], some ⟨"c", some (.obj []), some "object", none⟩,
         false, true⟩)]⟩
     "b" "root" "c" 0 none
     ⟨"root", ["b", "c"], none, true, true⟩
     ⟨by decide, by decide⟩ (by decide) (by decide) (by decide) (by decide)⟩

/-! ## Filter-view characterisation lemmas -/

theorem filter_isEmpty_eq_not_any {α : Type} (l : List α) (p : α → Bool) :
    (l.filter p).isEmpty = !(l.any p) := by
  induction l with
  | nil => rfl
  | cons a rest ih =>
    by_cases hp : p a = true <;>
      simp [List.filter_cons, List.any_cons, hp, ih]

theorem filterItems_kept (t : TreeData) (q ty : String) (em : Bool) :
    ∀ fuel acc ids, (filterItems t q ty em fuel acc ids).2
      = ids.filter (fun id => hasMatchF t q ty em fuel id) := by
  intro fuel
  induction fuel with
  | zero =>
    intro acc ids
    simp [filterItems, hasMatchF]
  | succ fuel ih =>
    intro acc ids
    induction ids generalizing acc with
    | nil => rfl
    | cons id rest ihids =>
      show (filterSibs t q ty em (filterItems t q ty em fuel) acc
        (id :: rest)).2 = _
      cases hl : lookupItem t.items id with
      | none =>
        simp only [filterSibs, hl]
        rw [show (filterSibs t q ty em (filterItems t q ty em fuel) acc rest)
            = filterItems t q ty em (fuel + 1) acc rest from rfl]
        rw [ihids acc]
        simp [List.filter_cons, hasMatchF, hl]
      | some item =>
        have hcond : (itemMatchesFilters q ty em item
              || !(filterItems t q ty em fuel acc item.children).2.isEmpty)
            = hasMatchF t q ty em (fuel + 1) id := by
          rw [ih acc item.children, filter_isEmpty_eq_not_any]
          simp [hasMatchF, hl]
        by_cases hc : hasMatchF t q ty em (fuel + 1) id = true
        · simp only [filterSibs, hl, hcond, hc, if_true]
          rw [show ∀ a2, (filterSibs t q ty em (filterItems t q ty em fuel) a2 rest)
              = filterItems t q ty em (fuel + 1) a2 rest from fun _ => rfl]
          rw [ihids]
          simp [List.filter_cons, hc]
        · have hc2 : hasMatchF t q ty em (fuel + 1) id = false :=
            Bool.not_eq_true _ ▸ Bool.eq_false_iff.mpr hc
          simp only [filterSibs, hl, hcond, hc2, Bool.false_eq_true, if_false]
          rw [show ∀ a2, (filterSibs t q ty em (filterItems t q ty em fuel) a2 rest)
              = filterItems t q ty em (fuel + 1) a2 rest from fun _ => rfl]
          rw [ihids]
          simp [List.filter_cons, hc2]

theorem filterItems_mem (t : TreeData) (q ty : String) (em : Bool) :
    ∀ fuel acc ids x,
      ((getAssoc (filterItems t q ty em fuel acc ids).1 x).isSome = true
        ↔ ((getAssoc acc x).isSome = true
            ∨ keptInView t q ty em fuel ids x = true)) := by
  intro fuel
  induction fuel with
  | zero =>
    intro acc ids x
    simp [filterItems, keptInView]
  | succ fuel ih =>
    intro acc ids x
    induction ids generalizing acc with
    | nil =>
      show ((getAssoc acc x).isSome = true ↔ _)
      simp [keptInView]
    | cons id rest ihids =>
      show ((getAssoc (filterSibs t q ty em (filterItems t q ty em fuel) acc
        (id :: rest)).1 x).isSome = true ↔ _)
      cases hl : lookupItem t.items id with
      | none =>
        simp only [filterSibs, hl]
        rw [show (filterSibs t q ty em (filterItems t q ty em fuel) acc rest)
            = filterItems t q ty em (fuel + 1) acc rest from rfl]
        rw [ihids acc]
        simp [keptInView, List.any_cons, hl]
      | some item =>
        have hcond : (itemMatchesFilters q ty em item
              || !(filterItems t q ty em fuel acc item.children).2.isEmpty)
            = hasMatchF t q ty em (fuel + 1) id := by
          rw [filterItems_kept t q ty em fuel acc item.children,
            filter_isEmpty_eq_not_any]
          simp [hasMatchF, hl]
        have hkept : keptInView t q ty em (fuel + 1) (id :: rest) x = true
            ↔ ((id = x ∧ hasMatchF t q ty em (fuel + 1) id = true)
              ∨ keptInView t q ty em fuel item.children x = true
              ∨ keptInView t q ty em (fuel + 1) rest x = true) := by
          simp [keptInView, List.any_cons, hl, Bool.and_eq_true,
            Bool.or_eq_true, decide_eq_true_eq]
          tauto
        by_cases hc : hasMatchF t q ty em (fuel + 1) id = true
        · simp only [filterSibs, hl, hcond, hc, if_true]
          rw [show ∀ a2, (filterSibs t q ty em (filterItems t q ty em fuel) a2 rest)
              = filterItems t q ty em (fuel + 1) a2 rest from fun _ => rfl]
          rw [ihids]
          rw [isSome_getAssoc_setAssoc]
          rw [hkept]
          simp only [Bool.or_eq_true, decide_eq_true_eq]
          rw [ih acc item.children x]
          constructor
          · rintro ((hx | h1) | h2)
            · exact Or.inr (Or.inl ⟨hx.symm, hc⟩)
            · rcases h1 with h1 | h1
              · exact Or.inl h1
              · exact Or.inr (Or.inr (Or.inl h1))
            · exact Or.inr (Or.inr (Or.inr h2))
          · rintro (h1 | ⟨hx, _⟩ | h1 | h1)
            · exact Or.inl (Or.inr (Or.inl h1))
            · exact Or.inl (Or.inl hx.symm)
            · exact Or.inl (Or.inr (Or.inr h1))
            · exact Or.inr h1
        · have hc2 : hasMatchF t q ty em (fuel + 1) id = false :=
            Bool.not_eq_true _ ▸ Bool.eq_false_iff.mpr hc
          simp only [filterSibs, hl, hcond, hc2, Bool.false_eq_true, if_false]
          rw [show ∀ a2, (filterSibs t q ty em (filterItems t q ty em fuel) a2 rest)
              = filterItems t q ty em (fuel + 1) a2 rest from fun _ => rfl]
          rw [ihids]
          rw [hkept]
          rw [ih acc item.children x]
          constructor
          · rintro ((h1 | h1) | h2)
            · exact Or.inl h1
            · exact Or.inr (Or.inr (Or.inl h1))
            · exact Or.inr (Or.inr (Or.inr h2))
          · rintro (h1 | ⟨_, hx⟩ | h1 | h1)
            · exact Or.inl (Or.inl h1)
            · rw [hc2] at hx
              cases hx
            · exact Or.inl (Or.inr h1)
            · exact Or.inr h1

theorem getAssoc_setAssoc_inv {α : Type} (r : List (String × α))
    (k : String) (v : α) (x : String) (it : α)
    (h : getAssoc (setAssoc r k v) x = some it) :
    (x = k ∧ it = v) ∨ getAssoc r x = some it := by
  by_cases hx : x = k
  · subst hx
    rw [getAssoc_setAssoc_self] at h
    injection h with h
    exact Or.inl ⟨rfl, h.symm⟩
  · rw [getAssoc_setAssoc_ne r k v x hx] at h
    exact Or.inr h

theorem filterItems_data (t : TreeData) (q ty : String) (em : Bool) :
    ∀ fuel acc ids x it,
      (∀ x2 it2, getAssoc acc x2 = some it2 → SameData t x2 it2) →
      getAssoc (filterItems t q ty em fuel acc ids).1 x = some it →
      SameData t x it := by
  intro fuel
  induction fuel with
  | zero =>
    intro acc ids x it hacc h
    exact hacc x it h
  | succ fuel ih =>
    intro acc ids x it hacc h
    induction ids generalizing acc with
    | nil => exact hacc x it h
    | cons id rest ihids =>
      rw [show filterItems t q ty em (fuel + 1) acc (id :: rest)
          = filterSibs t q ty em (filterItems t q ty em fuel) acc
            (id :: rest) from rfl] at h
      cases hl : lookupItem t.items id with
      | none =>
        simp only [filterSibs, hl] at h
        exact ihids acc hacc h
      | some item =>
        simp only [filterSibs, hl] at h
        by_cases hc : (itemMatchesFilters q ty em item
            || !(filterItems t q ty em fuel acc item.children).2.isEmpty) = true
        · rw [if_pos hc] at h
          refine ihids _ ?_ h
          intro x2 it2 h2
          rcases getAssoc_setAssoc_inv _ _ _ _ _ h2 with ⟨hx2, hit2⟩ | h2
          · subst hx2
            subst hit2
            exact ⟨item, hl, rfl, rfl⟩
          · exact ih _ _ x2 it2 hacc h2
        · rw [if_neg hc] at h
          refine ihids _ ?_ h
          intro x2 it2 h2
          exact ih _ _ x2 it2 hacc h2

/-- Counterexample to C6 as stated, at the tree of `{"a": "hello"}` with
search query `hello`: the node's stored value text equals the query, yet the
filtered view drops the node — value text is never matched. -/
theorem c6_counterexample :
    lookupItem
        (convertToAtlassianTree (.obj [("a", .str "hello")])).items
        "object-root-a"
      = some ⟨"object-root-a", [],
          some ⟨"a", some (.str "hello"), some "string", some "a"⟩,
          false, true⟩ ∧
    lookupItem
        (filteredTreeData (convertToAtlassianTree (.obj [("a", .str "hello")]))
          "hello" "all" false 3).items "object-root-a" = none := by
  constructor
  · decide
  · decide

/-- C6 amended.  When a filter is active, the filtered view holds exactly:
the root, plus every node reachable from the root that matches on key
(title) or type or has a reachable matching descendant (i.e. is an ancestor
of a match) — the stored value text is never examined, since the matcher is
a function of title and type alone; and the view is a pure projection whose
items reference the canonical node's id and `data`. -/
theorem c6_filteredTreeData_amended (t : TreeData) (q ty : String)
    (em : Bool) (fuel : Nat) (rootItem : TreeItem)
    (hq : ¬(q = "" ∧ ty = "all"))
    (hroot : lookupItem t.items t.rootId = some rootItem) :
    (∀ x, (getAssoc (filteredTreeData t q ty em fuel).items x).isSome = true
      ↔ (x = t.rootId
          ∨ keptInView t q ty em fuel rootItem.children x = true)) ∧
    (∀ it1 it2 : TreeItem, titleOf it1 = titleOf it2 →
      vtypeOf it1 = vtypeOf it2 →
      itemMatchesFilters q ty em it1 = itemMatchesFilters q ty em it2) ∧
    (∀ x it, x ≠ t.rootId →
      getAssoc (filteredTreeData t q ty em fuel).items x = some it →
      SameData t x it) := by
  have hcond : (q = "" && ty = "all") = false := by
    by_cases h1 : q = "" <;> by_cases h2 : ty = "all" <;>
      simp [h1, h2] <;> exact hq ⟨h1, h2⟩
  have hview : filteredTreeData t q ty em fuel
      = { rootId := t.rootId
          items := setAssoc (filterItems t q ty em fuel [] rootItem.children).1
            t.rootId
            { rootItem with
                children := (filterItems t q ty em fuel [] rootItem.children).2 } } := by
    simp only [filteredTreeData, hcond, Bool.false_eq_true, if_false, hroot]
  refine ⟨?_, ?_, ?_⟩
  · intro x
    rw [hview]
    show ((getAssoc (setAssoc _ _ _) x).isSome = true ↔ _)
    rw [isSome_getAssoc_setAssoc]
    simp only [Bool.or_eq_true, decide_eq_true_eq]
    rw [filterItems_mem t q ty em fuel [] rootItem.children x]
    constructor
    · rintro (hx | h | h)
      · exact Or.inl hx
      · simp [getAssoc] at h
      · exact Or.inr h
    · rintro (hx | h)
      · exact Or.inl hx
      · exact Or.inr (Or.inr h)
  · intro it1 it2 h1 h2
    simp only [itemMatchesFilters, h1, h2]
  · intro x it hx hit
    rw [hview] at hit
    rcases getAssoc_setAssoc_inv _ _ _ _ _ hit with ⟨hxr, _⟩ | hit2
    · exact absurd hxr hx
    · refine filterItems_data t q ty em fuel [] rootItem.children x it ?_ hit2
      intro x2 it2 h2
      simp [getAssoc] at h2

/-- Witness for C6 (amended) at the tree of `{"a": {"b": 1}, "c": 2}` with
query `b`: the match `b` and its ancestor `a` are in the view, `c` is not. -/
theorem c6_filteredTreeData_amended_witness :
    ((getAssoc
        (filteredTreeData
          (convertToAtlassianTree
            (.obj [("a", .obj [("b", .num 1)]), ("c", .num 2)]))
          "b" "all" true 3).items "object-root-a").isSome = true
      ↔ ("object-root-a" = "root"
          ∨ keptInView
              (convertToAtlassianTree
                (.obj [("a", .obj [("b", .num 1)]), ("c", .num 2)]))
              "b" "all" true 3
              ["object-root-a", "object-root-c"] "object-root-a" = true)) :=
  (c6_filteredTreeData_amended
      (convertToAtlassianTree
        (.obj [("a", .obj [("b", .num 1)]), ("c", .num 2)]))
      "b" "all" true 3
      { id := "root"
        children := ["object-root-a", "object-root-c"]
        data := some { title := "root", value := none, vtype := some "root", path := none }
        hasChildren := true
        isExpanded := true }
      (by intro h; exact absurd h.1 (by decide)) (by decide)).1 "object-root-a"

/-- Witness for C7 at the tree of `{"a": 1, "b": {"c": 2}}`: moving the
first root child under `b` keeps its occurrence count across all children
lists. -/
theorem c7_handleDragEnd_atomic_witness :
    childOccurrences
        (handleDragEnd
          (convertToAtlassianTree
            (.obj [("a", .num 1), ("b", .obj [("c", .num 2)])]))
          "root" 0 (some ("object-root-b", none))).items "object-root-a"
      = childOccurrences
          (convertToAtlassianTree
            (.obj [("a", .num 1), ("b", .obj [("c", .num 2)])])).items
          "object-root-a" :=
  (c7_handleDragEnd_atomic
      (convertToAtlassianTree
        (.obj [("a", .num 1), ("b", .obj [("c", .num 2)])]))
      "root" 0).2.2.2.2 "object-root-b" none
    { id := "root"
      children := ["object-root-a", "object-root-b"]
      data := some { title := "root", value := none, vtype := some "root", path := none }
      hasChildren := true
      isExpanded := true }
    "object-root-a" (by decide) (by decide) (by decide) (by decide) (by decide)

/-! ## Digit-string lemmas (array titles of the converter) -/

theorem digitChar_mem (d : Nat) (h : d < 10) : digitChar d ∈ decDigits := by
  interval_cases d <;> decide

theorem natReprAux_digits : ∀ (f n : Nat), ∀ c ∈ natReprAux f n, c ∈ decDigits := by
  intro f
  induction f with
  | zero => intro n c hc; cases hc
  | succ f ih =>
    intro n c hc
    simp only [natReprAux] at hc
    by_cases h10 : n < 10
    · rw [if_pos h10] at hc
      rw [List.mem_singleton] at hc
      rw [hc]
      exact digitChar_mem n h10
    · rw [if_neg h10] at hc
      rcases List.mem_append.mp hc with hc | hc
      · exact ih (n / 10) c hc
      · rw [List.mem_singleton] at hc
        rw [hc]
        exact digitChar_mem (n % 10) (Nat.mod_lt n (by omega))

theorem natReprAux_ne_nil : ∀ (f n : Nat), 0 < f → natReprAux f n ≠ [] := by
  intro f n hf
  cases f with
  | zero => omega
  | succ f =>
    simp only [natReprAux]
    by_cases h10 : n < 10
    · rw [if_pos h10]; simp
    · rw [if_neg h10]; simp

theorem natRepr_digits (n : Nat) : ∀ c ∈ natRepr n, c ∈ decDigits :=
  natReprAux_digits (n + 1) n

theorem natRepr_ne_nil (n : Nat) : natRepr n ≠ [] :=
  natReprAux_ne_nil (n + 1) n (Nat.succ_pos n)

theorem dropWhile_eq_of_all_false (p : Char → Bool) :
    ∀ l : List Char, (∀ c ∈ l, p c = false) → l.dropWhile p = l := by
  intro l h
  cases l with
  | nil => rfl
  | cons a rest =>
    rw [List.dropWhile_cons, h a (List.mem_cons_self a rest)]
    simp

theorem takeWhile_eq_of_all_true (p : Char → Bool) :
    ∀ l : List Char, (∀ c ∈ l, p c = true) → l.takeWhile p = l := by
  intro l
  induction l with
  | nil => intro _; rfl
  | cons a rest ih =>
    intro h
    rw [List.takeWhile_cons, h a (List.mem_cons_self a rest)]
    simp only [if_true]
    rw [ih (fun c hc => h c (List.mem_cons_of_mem a hc))]

theorem dropWhile_nil_of_all_true (p : Char → Bool) :
    ∀ l : List Char, (∀ c ∈ l, p c = true) → l.dropWhile p = [] := by
  intro l
  induction l with
  | nil => intro _; rfl
  | cons a rest ih =>
    intro h
    rw [List.dropWhile_cons, h a (List.mem_cons_self a rest)]
    simp only [if_true]
    exact ih (fun c hc => h c (List.mem_cons_of_mem a hc))

theorem jsTrim_digits (l : List Char) (h : ∀ c ∈ l, c ∈ decDigits) :
    jsTrim l = l := by
  have hws : ∀ c ∈ l, isJsWs c = false := fun c hc =>
    (by decide : ∀ c ∈ decDigits, isJsWs c = false) c (h c hc)
  unfold jsTrim
  rw [dropWhile_eq_of_all_false isJsWs l hws,
    dropWhile_eq_of_all_false isJsWs l.reverse
      (fun c hc => hws c (List.mem_reverse.mp hc)),
    List.reverse_reverse]

theorem mantissaOK_digits (l : List Char) (hne : l ≠ [])
    (h : ∀ c ∈ l, c ∈ decDigits) : mantissaOK l = true := by
  have hdig : ∀ c ∈ l, isDig c = true := fun c hc =>
    (by decide : ∀ c ∈ decDigits, isDig c = true) c (h c hc)
  unfold mantissaOK
  rw [takeWhile_eq_of_all_true isDig l hdig, dropWhile_nil_of_all_true isDig l hdig]
  simp only [expPartOK, Bool.and_true]
  simpa using hne

theorem unsignedOK_digits (l : List Char) (hne : l ≠ [])
    (h : ∀ c ∈ l, c ∈ decDigits) : unsignedOK l = true := by
  unfold unsignedOK
  rw [mantissaOK_digits l hne h]
  simp

theorem jsNumberParses_digits (l : List Char) (hne : l ≠ [])
    (h : ∀ c ∈ l, c ∈ decDigits) : jsNumberParses (String.mk l) = true := by
  have hdata : (String.mk l).data = l := rfl
  simp only [jsNumberParses, hdata, jsTrim_digits l h]
  split
  · exact absurd rfl hne
  · rename_i x rest
    have hx : x ∈ decDigits :=
      h x (List.mem_cons_of_mem _ (List.mem_cons_self _ _))
    rw [(by decide : ∀ c ∈ decDigits, ((c = 'x' : Bool) || (c = 'X')) = false) x hx]
    rw [(by decide : ∀ c ∈ decDigits, ((c = 'o' : Bool) || (c = 'O')) = false) x hx]
    rw [(by decide : ∀ c ∈ decDigits, ((c = 'b' : Bool) || (c = 'B')) = false) x hx]
    simp only [Bool.false_eq_true, if_false]
    exact unsignedOK_digits _ hne h
  · rename_i c rest hcon
    have hc : c ∈ decDigits := h c (List.mem_cons_self _ _)
    rw [(by decide : ∀ c ∈ decDigits, ((c = '+' : Bool) || (c = '-')) = false) c hc]
    simp only [Bool.false_eq_true, if_false]
    exact unsignedOK_digits _ hne h

theorem digitChar_toNat (d : Nat) (h : d < 10) : (digitChar d).toNat = 48 + d := by
  interval_cases d <;> decide

theorem digitsVal_append (l : List Char) (c : Char) :
    digitsVal (l ++ [c]) = 10 * digitsVal l + (c.toNat - 48) := by
  unfold digitsVal
  rw [List.foldl_append]
  rfl

theorem natReprAux_val : ∀ (f n : Nat), n < f → digitsVal (natReprAux f n) = n := by
  intro f
  induction f with
  | zero => intro n hn; omega
  | succ f ih =>
    intro n hn
    simp only [natReprAux]
    by_cases h10 : n < 10
    · rw [if_pos h10]
      show digitsVal ([] ++ [digitChar n]) = n
      rw [digitsVal_append, digitChar_toNat n h10]
      show 10 * 0 + (48 + n - 48) = n
      omega
    · rw [if_neg h10]
      rw [digitsVal_append, ih (n / 10) (by omega), digitChar_toNat (n % 10) (by omega)]
      omega

theorem digitsVal_natRepr (n : Nat) : digitsVal (natRepr n) = n :=
  natReprAux_val (n + 1) n (Nat.lt_succ_self n)

theorem jsParseInt_digits (l : List Char) (hne : l ≠ [])
    (h : ∀ c ∈ l, c ∈ decDigits) :
    jsParseInt (String.mk l) = some ((digitsVal l : Nat) : Int) := by
  have hdata : (String.mk l).data = l := rfl
  have hdig : ∀ c ∈ l, isDig c = true := fun c hc =>
    (by decide : ∀ c ∈ decDigits, isDig c = true) c (h c hc)
  have hcore : jsParseIntCore false l = some ((digitsVal l : Nat) : Int) := by
    simp only [jsParseIntCore]
    split
    · rename_i x rest
      have hx : x ∈ decDigits :=
        h x (List.mem_cons_of_mem _ (List.mem_cons_self _ _))
      rw [(by decide : ∀ c ∈ decDigits, ((c = 'x' : Bool) || (c = 'X')) = false) x hx]
      simp only [Bool.false_eq_true, if_false]
      rw [takeWhile_eq_of_all_true isDig _ hdig]
    · rw [takeWhile_eq_of_all_true isDig l hdig]
      rw [(by simpa using hne : l.isEmpty = false)]
      simp
  simp only [jsParseInt, hdata, jsTrim_digits l h]
  split
  · rename_i rest
    have hmm : '-' ∈ decDigits := h '-' (List.mem_cons_self _ _)
    exact absurd hmm (by decide)
  · rename_i rest
    have hmm : '+' ∈ decDigits := h '+' (List.mem_cons_self _ _)
    exact absurd hmm (by decide)
  · exact hcore

theorem filter_eq_of_all_true (f : Char → Bool) :
    ∀ l : List Char, (∀ c ∈ l, f c = true) → l.filter f = l := by
  intro l h
  exact List.filter_eq_self.mpr h

theorem stripBrackets_arrayTitle (i : Nat) :
    stripBrackets ("[" ++ natStr i ++ "]") = natStr i := by
  unfold stripBrackets
  rw [String.data_append, String.data_append]
  show String.mk (List.filter _ (['['] ++ (natRepr i ++ [']']))) = natStr i
  rw [List.filter_append, List.filter_append]
  rw [filter_eq_of_all_true _ (natRepr i) (fun c hc =>
    (by decide : ∀ c ∈ decDigits, (!((c = '[' : Bool) || (c = ']'))) = true) c
      (natRepr_digits i c hc))]
  show String.mk ([] ++ (natRepr i ++ [])) = natStr i
  rw [List.append_nil, List.nil_append]
  rfl

theorem natStr_ne_empty (i : Nat) : (natStr i = "") = False := by
  simp only [eq_iff_iff, iff_false]
  intro hq
  have : (natStr i).data = ("" : String).data := by rw [hq]
  exact natRepr_ne_nil i this

theorem numericTitle_arrayTitle (i : Nat) (val : Option JValue)
    (ty pa : Option String) :
    numericTitle (some ⟨"[" ++ natStr i ++ "]", val, ty, pa⟩) = true := by
  show jsNumberParses (stripBrackets ("[" ++ natStr i ++ "]")) = true
  rw [stripBrackets_arrayTitle]
  exact jsNumberParses_digits (natRepr i) (natRepr_ne_nil i) (natRepr_digits i)

theorem titleIndex_arrayTitle (i : Nat) (val : Option JValue)
    (ty pa : Option String) :
    titleIndex (some ⟨"[" ++ natStr i ++ "]", val, ty, pa⟩) = some (i : Int) := by
  show jsParseInt
      (if stripBrackets ("[" ++ natStr i ++ "]") = "" then "0"
       else stripBrackets ("[" ++ natStr i ++ "]")) = some (i : Int)
  rw [stripBrackets_arrayTitle]
  rw [if_neg (by rw [natStr_ne_empty i]; exact id)]
  rw [show natStr i = String.mk (natRepr i) from rfl]
  rw [jsParseInt_digits (natRepr i) (natRepr_ne_nil i) (natRepr_digits i)]
  rw [digitsVal_natRepr]

/-! ## Round-trip lemmas: the tree built by the converter reads back -/

theorem buildArr_snd_cons (v : JValue) (rest : List JValue) (i : Nat)
    (p : String) (path : List String) :
    (buildArr (v :: rest) i p path).2
      = arrayId p i :: (buildArr rest (i + 1) p path).2 := rfl

theorem buildArr_fst_cons (v : JValue) (rest : List JValue) (i : Nat)
    (p : String) (path : List String) :
    (buildArr (v :: rest) i p path).1
      = (if hasChildrenOf v then
            buildTreeItems v (arrayId p i) (path ++ [natStr i])
          else ([], [])).1
        ++ [(arrayId p i,
            mkChildItem v (arrayId p i) ("[" ++ natStr i ++ "]")
              ((if hasChildrenOf v then
                  buildTreeItems v (arrayId p i) (path ++ [natStr i])
                else ([], [])).2)
              (path ++ [natStr i]) path.length)]
        ++ (buildArr rest (i + 1) p path).1 := rfl

theorem buildObj_snd_cons (f : String × JValue) (rest : List (String × JValue))
    (p : String) (path : List String) :
    (buildObj (f :: rest) p path).2
      = objectId p f.1 :: (buildObj rest p path).2 := rfl

theorem buildObj_fst_cons (f : String × JValue) (rest : List (String × JValue))
    (p : String) (path : List String) :
    (buildObj (f :: rest) p path).1
      = (if hasChildrenOf f.2 then
            buildTreeItems f.2 (objectId p f.1) (path ++ [f.1])
          else ([], [])).1
        ++ [(objectId p f.1,
            mkChildItem f.2 (objectId p f.1) f.1
              ((if hasChildrenOf f.2 then
                  buildTreeItems f.2 (objectId p f.1) (path ++ [f.1])
                else ([], [])).2)
              (path ++ [f.1]) path.length)]
        ++ (buildObj rest p path).1 := rfl

theorem insertByIdx_cons_le (x y : Int × TreeItem) (ys : List (Int × TreeItem))
    (h : x.1 ≤ y.1) : insertByIdx x (y :: ys) = x :: y :: ys := by
  unfold insertByIdx
  rw [if_pos h]

theorem sortByIdx_cons (x : Int × TreeItem) (l : List (Int × TreeItem)) :
    sortByIdx (x :: l) = insertByIdx x (sortByIdx l) := rfl

theorem sortByIdx_sorted :
    ∀ l : List (Int × TreeItem),
      List.Pairwise (fun a b => a.1 ≤ b.1) l → sortByIdx l = l := by
  intro l
  induction l with
  | nil => intro _; rfl
  | cons x l ih =>
    intro h
    rw [List.pairwise_cons] at h
    rw [sortByIdx_cons, ih h.2]
    cases l with
    | nil => rfl
    | cons y ys => exact insertByIdx_cons_le x y ys (h.1 y (List.mem_cons_self y ys))

theorem arrPairs_ge (p : String) (path : List String) :
    ∀ (xs : List JValue) (i : Nat), ∀ q ∈ arrPairs p path xs i, (i : Int) ≤ q.1 := by
  intro xs
  induction xs with
  | nil => intro i q hq; cases hq
  | cons v rest ih =>
    intro i q hq
    rcases List.mem_cons.mp hq with hq | hq
    · rw [hq]
    · have := ih (i + 1) q hq
      have hle : ((i : Int)) ≤ ((i + 1 : Nat) : Int) := by exact_mod_cast Nat.le_succ i
      exact le_trans hle this

theorem arrPairs_pairwise (p : String) (path : List String) :
    ∀ (xs : List JValue) (i : Nat),
      List.Pairwise (fun a b => a.1 ≤ b.1) (arrPairs p path xs i) := by
  intro xs
  induction xs with
  | nil => intro i; exact List.Pairwise.nil
  | cons v rest ih =>
    intro i
    refine List.Pairwise.cons ?_ (ih (i + 1))
    intro q hq
    have h1 := arrPairs_ge p path rest (i + 1) q hq
    have hle : ((i : Int)) ≤ ((i + 1 : Nat) : Int) := by exact_mod_cast Nat.le_succ i
    exact le_trans hle h1

theorem buildArr_all_numeric (L : ItemsMap)
    (hnod : (L.map (fun e => e.1)).Nodup) (p : String) (path : List String) :
    ∀ (xs : List JValue) (i : Nat),
      (∀ e ∈ (buildArr xs i p path).1, e ∈ L) →
      ((buildArr xs i p path).2.all (fun itemId =>
        match lookupItem L itemId with
        | some item => numericTitle item.data
        | none => false)) = true := by
  intro xs
  induction xs with
  | nil => intro i _; rfl
  | cons v rest ih =>
    intro i hsub
    rw [buildArr_snd_cons, List.all_cons]
    have hmem : (arrayId p i,
        mkChildItem v (arrayId p i) ("[" ++ natStr i ++ "]")
          ((if hasChildrenOf v then
              buildTreeItems v (arrayId p i) (path ++ [natStr i])
            else ([], [])).2)
          (path ++ [natStr i]) path.length) ∈ L := by
      apply hsub
      rw [buildArr_fst_cons]
      simp
    have hlook := mem_entry_getAssoc L _ _ hnod hmem
    simp only [lookupItem, hlook, mkChildItem]
    rw [numericTitle_arrayTitle]
    simp only [Bool.true_and]
    refine ih (i + 1) ?_
    intro e he
    apply hsub
    rw [buildArr_fst_cons]
    simp only [List.mem_append]
    exact Or.inr he

theorem buildArr_map_pairs (L : ItemsMap)
    (hnod : (L.map (fun e => e.1)).Nodup) (p : String) (path : List String) :
    ∀ (xs : List JValue) (i : Nat),
      (∀ e ∈ (buildArr xs i p path).1, e ∈ L) →
      ((buildArr xs i p path).2.map (fun itemId =>
        match lookupItem L itemId with
        | some item => ((titleIndex item.data).getD 0, item)
        | none => (0, default))) = arrPairs p path xs i := by
  intro xs
  induction xs with
  | nil => intro i _; rfl
  | cons v rest ih =>
    intro i hsub
    rw [buildArr_snd_cons, List.map_cons]
    have hmem : (arrayId p i,
        mkChildItem v (arrayId p i) ("[" ++ natStr i ++ "]")
          ((if hasChildrenOf v then
              buildTreeItems v (arrayId p i) (path ++ [natStr i])
            else ([], [])).2)
          (path ++ [natStr i]) path.length) ∈ L := by
      apply hsub
      rw [buildArr_fst_cons]
      simp
    have hlook := mem_entry_getAssoc L _ _ hnod hmem
    simp only [lookupItem, hlook]
    rw [show arrPairs p path (v :: rest) i
        = ((i : Int),
            mkChildItem v (arrayId p i) ("[" ++ natStr i ++ "]")
              ((if hasChildrenOf v then
                  buildTreeItems v (arrayId p i) (path ++ [natStr i])
                else ([], [])).2)
              (path ++ [natStr i]) path.length) :: arrPairs p path rest (i + 1)
      from rfl]
    refine congrArg₂ _ ?_ ?_
    · rw [show (mkChildItem v (arrayId p i) ("[" ++ natStr i ++ "]")
          ((if hasChildrenOf v then
              buildTreeItems v (arrayId p i) (path ++ [natStr i])
            else ([], [])).2)
          (path ++ [natStr i]) path.length).data
          = some ⟨"[" ++ natStr i ++ "]", some v, some (typeName v),
              some (joinDots (path ++ [natStr i]))⟩ from rfl]
      rw [titleIndex_arrayTitle]
      rfl
    · refine ih (i + 1) ?_
      intro e he
      apply hsub
      rw [buildArr_fst_cons]
      simp only [List.mem_append]
      exact Or.inr he

theorem jsTruthy_of_good (v : JValue) (hg : goodChild v = true)
    (hv : hasChildrenOf v = false) : jsTruthy v = true := by
  cases v with
  | null => exact absurd hg (by decide)
  | bool b => exact hg
  | num n => exact hg
  | str s => exact hg
  | arr xs => rfl
  | obj fs => rfl

theorem setAssoc_absent {α : Type} (r : List (String × α)) (k : String) (v : α)
    (h : r.any (fun e => e.1 = k) = false) : setAssoc r k v = r ++ [(k, v)] := by
  unfold setAssoc
  rw [h]
  rfl

theorem keyNotIn_spec (k : String) :
    ∀ fs : List (String × JValue), keyNotIn k fs = true →
      ∀ f ∈ fs, ((f.1 : String) = k : Bool) = false := by
  intro fs
  induction fs with
  | nil => intro _ f hf; cases hf
  | cons g rest ih =>
    intro h f hf
    simp only [keyNotIn, Bool.and_eq_true] at h
    rcases List.mem_cons.mp hf with hf | hf
    · rw [hf]
      simpa using h.1
    · exact ih h.2 f hf

/-- The contribution of one converted child item: a childless item reads
back as its stored value (good values are truthy), an item with children
reads back by the recursive conversion (delegated to the two hypotheses,
which the fuel induction supplies). -/
theorem elem_contrib (L : ItemsMap) (fuel : Nat)
    (hP : ∀ (xs : List JValue) (i : Nat) (p : String) (path : List String),
      goodList xs = true → xs ≠ [] →
      (∀ e ∈ (buildArr xs i p path).1, e ∈ L) → jdepthList xs < fuel →
      convertItemsToJson L fuel (buildArr xs i p path).2 = .arr xs)
    (hQ : ∀ (fs : List (String × JValue)) (p : String) (path : List String),
      fs ≠ [] → nodupKeysB fs = true → someNonNumericKey fs = true →
      goodFields fs = true →
      (∀ e ∈ (buildObj fs p path).1, e ∈ L) → jdepthFields fs < fuel →
      convertItemsToJson L fuel (buildObj fs p path).2 = .obj fs)
    (v : JValue) (id : String) (cp : List String) (title : String)
    (hg : goodChild v = true)
    (hsub : ∀ e ∈ (if hasChildrenOf v then buildTreeItems v id cp
        else ([], [])).1, e ∈ L)
    (hd : jdepth v ≤ fuel) :
    (if ((if hasChildrenOf v then buildTreeItems v id cp
          else ([], [])).2).isEmpty
     then valueOrEmptyObj
       (some ⟨title, some v, some (typeName v), some (joinDots cp)⟩)
     else convertItemsToJson L fuel
       ((if hasChildrenOf v then buildTreeItems v id cp
         else ([], [])).2)) = v := by
  cases hv : hasChildrenOf v with
  | false =>
    simp only [hv, Bool.false_eq_true, if_false]
    show valueOrEmptyObj
      (some ⟨title, some v, some (typeName v), some (joinDots cp)⟩) = v
    show (if jsTruthy v = true then v else .obj []) = v
    rw [jsTruthy_of_good v hg hv]
    simp
  | true =>
    simp only [hv, if_true] at hsub ⊢
    cases v with
    | null => simp [hasChildrenOf] at hv
    | bool b => simp [hasChildrenOf] at hv
    | num n => simp [hasChildrenOf] at hv
    | str s => simp [hasChildrenOf] at hv
    | arr xs =>
      have hxs : xs ≠ [] := by
        intro hh
        rw [hh] at hv
        exact absurd hv (by decide)
      have hshape : buildTreeItems (.arr xs) id cp = buildArr xs 0 id cp := rfl
      rw [hshape] at hsub ⊢
      have hkne : ((buildArr xs 0 id cp).2).isEmpty = false := by
        cases xs with
        | nil => exact absurd rfl hxs
        | cons a r => rfl
      rw [hkne]
      simp only [Bool.false_eq_true, if_false]
      refine hP xs 0 id cp hg hxs hsub ?_
      have : jdepth (.arr xs) = 1 + jdepthList xs := rfl
      omega
    | obj fs =>
      have hfs : fs ≠ [] := by
        intro hh
        rw [hh] at hv
        exact absurd hv (by decide)
      have hshape : buildTreeItems (.obj fs) id cp = buildObj fs id cp := rfl
      rw [hshape] at hsub ⊢
      have hkne : ((buildObj fs id cp).2).isEmpty = false := by
        cases fs with
        | nil => exact absurd rfl hfs
        | cons a r => rfl
      rw [hkne]
      simp only [Bool.false_eq_true, if_false]
      have hisempty : fs.isEmpty = false := by
        cases fs with
        | nil => exact absurd rfl hfs
        | cons a r => rfl
      have hg2 : (nodupKeysB fs && someNonNumericKey fs && goodFields fs) = true := by
        have hgu : goodChild (.obj fs)
            = (fs.isEmpty || (nodupKeysB fs && someNonNumericKey fs && goodFields fs)) := rfl
        rw [hgu, hisempty, Bool.false_or] at hg
        exact hg
      simp only [Bool.and_eq_true] at hg2
      refine hQ fs id cp hfs hg2.1.1 hg2.1.2 hg2.2 hsub ?_
      have : jdepth (.obj fs) = 1 + jdepthFields fs := rfl
      omega

theorem arrPairs_map_contrib (L : ItemsMap) (fuel : Nat)
    (hP : ∀ (xs : List JValue) (i : Nat) (p : String) (path : List String),
      goodList xs = true → xs ≠ [] →
      (∀ e ∈ (buildArr xs i p path).1, e ∈ L) → jdepthList xs < fuel →
      convertItemsToJson L fuel (buildArr xs i p path).2 = .arr xs)
    (hQ : ∀ (fs : List (String × JValue)) (p : String) (path : List String),
      fs ≠ [] → nodupKeysB fs = true → someNonNumericKey fs = true →
      goodFields fs = true →
      (∀ e ∈ (buildObj fs p path).1, e ∈ L) → jdepthFields fs < fuel →
      convertItemsToJson L fuel (buildObj fs p path).2 = .obj fs)
    (p : String) (path : List String) :
    ∀ (xs : List JValue) (i : Nat), goodList xs = true →
      (∀ e ∈ (buildArr xs i p path).1, e ∈ L) → jdepthList xs ≤ fuel →
      ((arrPairs p path xs i).map (fun q =>
        if q.2.children.isEmpty then valueOrEmptyObj q.2.data
        else convertItemsToJson L fuel q.2.children)) = xs := by
  intro xs
  induction xs with
  | nil => intro i _ _ _; rfl
  | cons v rest ih =>
    intro i hg hsub hdep
    have hgv : goodChild v = true ∧ goodList rest = true := by
      have : goodList (v :: rest) = (goodChild v && goodList rest) := rfl
      rw [this, Bool.and_eq_true] at hg
      exact hg
    have hdepv : jdepth v ≤ fuel ∧ jdepthList rest ≤ fuel := by
      have : jdepthList (v :: rest) = max (jdepth v) (jdepthList rest) := rfl
      rw [this] at hdep
      omega
    rw [show arrPairs p path (v :: rest) i
        = ((i : Int),
            mkChildItem v (arrayId p i) ("[" ++ natStr i ++ "]")
              ((if hasChildrenOf v then
                  buildTreeItems v (arrayId p i) (path ++ [natStr i])
                else ([], [])).2)
              (path ++ [natStr i]) path.length) :: arrPairs p path rest (i + 1)
      from rfl]
    rw [List.map_cons]
    refine congrArg₂ _ ?_ ?_
    · show (if ((if hasChildrenOf v then
            buildTreeItems v (arrayId p i) (path ++ [natStr i])
          else ([], [])).2).isEmpty
        then valueOrEmptyObj
          (some ⟨"[" ++ natStr i ++ "]", some v, some (typeName v),
            some (joinDots (path ++ [natStr i]))⟩)
        else convertItemsToJson L fuel
          ((if hasChildrenOf v then
              buildTreeItems v (arrayId p i) (path ++ [natStr i])
            else ([], [])).2)) = v
      refine elem_contrib L fuel hP hQ v (arrayId p i) (path ++ [natStr i])
        ("[" ++ natStr i ++ "]") hgv.1 ?_ hdepv.1
      intro e he
      apply hsub
      rw [buildArr_fst_cons]
      simp only [List.mem_append]
      exact Or.inl (Or.inl he)
    · refine ih (i + 1) hgv.2 ?_ hdepv.2
      intro e he
      apply hsub
      rw [buildArr_fst_cons]
      simp only [List.mem_append]
      exact Or.inr he

theorem buildObj_not_all_numeric (L : ItemsMap)
    (hnod : (L.map (fun e => e.1)).Nodup) (p : String) (path : List String) :
    ∀ fs : List (String × JValue),
      (∀ e ∈ (buildObj fs p path).1, e ∈ L) →
      someNonNumericKey fs = true →
      ((buildObj fs p path).2.all (fun itemId =>
        match lookupItem L itemId with
        | some item => numericTitle item.data
        | none => false)) = false := by
  intro fs
  induction fs with
  | nil => intro _ h; exact absurd h (by decide)
  | cons f rest ih =>
    intro hsub hbad
    rw [buildObj_snd_cons, List.all_cons]
    have hmem : (objectId p f.1,
        mkChildItem f.2 (objectId p f.1) f.1
          ((if hasChildrenOf f.2 then
              buildTreeItems f.2 (objectId p f.1) (path ++ [f.1])
            else ([], [])).2)
          (path ++ [f.1]) path.length) ∈ L := by
      apply hsub
      rw [buildObj_fst_cons]
      simp
    have hlook : lookupItem L (objectId p f.1)
        = some (mkChildItem f.2 (objectId p f.1) f.1
          ((if hasChildrenOf f.2 then
              buildTreeItems f.2 (objectId p f.1) (path ++ [f.1])
            else ([], [])).2)
          (path ++ [f.1]) path.length) :=
      mem_entry_getAssoc L _ _ hnod hmem
    simp only [hlook]
    have hbad2 : (!jsNumberParses (stripBrackets f.1)
        || rest.any (fun g => !jsNumberParses (stripBrackets g.1))) = true := by
      have : someNonNumericKey (f :: rest)
          = (!jsNumberParses (stripBrackets f.1)
            || rest.any (fun g => !jsNumberParses (stripBrackets g.1))) := by
        unfold someNonNumericKey
        rw [List.any_cons]
      rw [← this]
      exact hbad
    cases hh : jsNumberParses (stripBrackets f.1) with
    | false =>
      have : numericTitle (mkChildItem f.2 (objectId p f.1) f.1
          ((if hasChildrenOf f.2 then
              buildTreeItems f.2 (objectId p f.1) (path ++ [f.1])
            else ([], [])).2)
          (path ++ [f.1]) path.length).data = false := by
        show jsNumberParses (stripBrackets f.1) = false
        exact hh
      rw [this]
      rfl
    | true =>
      rw [hh] at hbad2
      simp only [Bool.not_true, Bool.false_or] at hbad2
      rw [ih (fun e he => hsub e (by
        rw [buildObj_fst_cons]
        simp only [List.mem_append]
        exact Or.inr he)) hbad2]
      simp

theorem buildObj_foldl (L : ItemsMap)
    (hnod : (L.map (fun e => e.1)).Nodup) (fuel : Nat)
    (hP : ∀ (xs : List JValue) (i : Nat) (p : String) (path : List String),
      goodList xs = true → xs ≠ [] →
      (∀ e ∈ (buildArr xs i p path).1, e ∈ L) → jdepthList xs < fuel →
      convertItemsToJson L fuel (buildArr xs i p path).2 = .arr xs)
    (hQ : ∀ (fs : List (String × JValue)) (p : String) (path : List String),
      fs ≠ [] → nodupKeysB fs = true → someNonNumericKey fs = true →
      goodFields fs = true →
      (∀ e ∈ (buildObj fs p path).1, e ∈ L) → jdepthFields fs < fuel →
      convertItemsToJson L fuel (buildObj fs p path).2 = .obj fs)
    (p : String) (path : List String) :
    ∀ (fs : List (String × JValue)) (acc : List (String × JValue)),
      nodupKeysB fs = true → goodFields fs = true →
      (∀ e ∈ (buildObj fs p path).1, e ∈ L) →
      (∀ f ∈ fs, (acc.any (fun e => e.1 = f.1)) = false) →
      jdepthFields fs ≤ fuel →
      ((buildObj fs p path).2.foldl (fun acc itemId =>
        match lookupItem L itemId with
        | none => acc
        | some item =>
          let key := match item.data with
            | some d => d.title
            | none => ""
          setAssoc acc key
            (if item.children.isEmpty then valueOrEmptyObj item.data
             else convertItemsToJson L fuel item.children)) acc) = acc ++ fs := by
  intro fs
  induction fs with
  | nil => intro acc _ _ _ _ _; simp [buildObj]
  | cons f rest ih =>
    intro acc hnk hgf hsub hacc hdep
    have hnk2 : keyNotIn f.1 rest = true ∧ nodupKeysB rest = true := by
      have : nodupKeysB (f :: rest) = (keyNotIn f.1 rest && nodupKeysB rest) := rfl
      rw [this, Bool.and_eq_true] at hnk
      exact hnk
    have hgf2 : goodChild f.2 = true ∧ goodFields rest = true := by
      have : goodFields (f :: rest) = (goodChild f.2 && goodFields rest) := rfl
      rw [this, Bool.and_eq_true] at hgf
      exact hgf
    have hdep2 : jdepth f.2 ≤ fuel ∧ jdepthFields rest ≤ fuel := by
      have : jdepthFields (f :: rest) = max (jdepth f.2) (jdepthFields rest) := rfl
      rw [this] at hdep
      omega
    rw [buildObj_snd_cons, List.foldl_cons]
    have hmem : (objectId p f.1,
        mkChildItem f.2 (objectId p f.1) f.1
          ((if hasChildrenOf f.2 then
              buildTreeItems f.2 (objectId p f.1) (path ++ [f.1])
            else ([], [])).2)
          (path ++ [f.1]) path.length) ∈ L := by
      apply hsub
      rw [buildObj_fst_cons]
      simp
    have hlook : lookupItem L (objectId p f.1)
        = some (mkChildItem f.2 (objectId p f.1) f.1
          ((if hasChildrenOf f.2 then
              buildTreeItems f.2 (objectId p f.1) (path ++ [f.1])
            else ([], [])).2)
          (path ++ [f.1]) path.length) :=
      mem_entry_getAssoc L _ _ hnod hmem
    simp only [hlook]
    have hcontrib : (if ((if hasChildrenOf f.2 then
            buildTreeItems f.2 (objectId p f.1) (path ++ [f.1])
          else ([], [])).2).isEmpty
        then valueOrEmptyObj
          (some ⟨f.1, some f.2, some (typeName f.2),
            some (joinDots (path ++ [f.1]))⟩)
        else convertItemsToJson L fuel
          ((if hasChildrenOf f.2 then
              buildTreeItems f.2 (objectId p f.1) (path ++ [f.1])
            else ([], [])).2)) = f.2 := by
      refine elem_contrib L fuel hP hQ f.2 (objectId p f.1) (path ++ [f.1])
        f.1 hgf2.1 ?_ hdep2.1
      intro e he
      apply hsub
      rw [buildObj_fst_cons]
      simp only [List.mem_append]
      exact Or.inl (Or.inl he)
    show ((buildObj rest p path).2.foldl _
        (setAssoc acc f.1
          (if ((if hasChildrenOf f.2 then
              buildTreeItems f.2 (objectId p f.1) (path ++ [f.1])
            else ([], [])).2).isEmpty
           then valueOrEmptyObj
             (some ⟨f.1, some f.2, some (typeName f.2),
               some (joinDots (path ++ [f.1]))⟩)
           else convertItemsToJson L fuel
             ((if hasChildrenOf f.2 then
                 buildTreeItems f.2 (objectId p f.1) (path ++ [f.1])
               else ([], [])).2)))) = acc ++ (f :: rest)
    rw [hcontrib]
    rw [setAssoc_absent acc f.1 f.2 (hacc f (List.mem_cons_self f rest))]
    rw [ih (acc ++ [(f.1, f.2)]) hnk2.2 hgf2.2
      (fun e he => hsub e (by
        rw [buildObj_fst_cons]
        simp only [List.mem_append]
        exact Or.inr he))
      ?_ hdep2.2]
    · rw [List.append_assoc]
      rfl
    · intro g hg
      rw [List.any_append]
      rw [hacc g (List.mem_cons_of_mem f hg)]
      have : ([(f.1, f.2)].any (fun e => e.1 = g.1)) = false := by
        have hkf := keyNotIn_spec f.1 rest hnk2.1 g hg
        simp only [List.any_cons, List.any_nil, Bool.or_false]
        simp only [decide_eq_false_iff_not] at hkf ⊢
        exact fun hh => hkf hh.symm
      rw [this]
      rfl

/-- The two sibling-list round-trip statements, by induction on the fuel:
the id list produced by `buildArr` (resp. `buildObj`) for a good nonempty
array (resp. object) converts back to exactly that array (resp. object),
provided every record assignment the builder performed is present in the
ambient items record `L`. -/
theorem convert_build (L : ItemsMap)
    (hnod : (L.map (fun e => e.1)).Nodup) :
    ∀ fuel : Nat,
      (∀ (xs : List JValue) (i : Nat) (p : String) (path : List String),
        goodList xs = true → xs ≠ [] →
        (∀ e ∈ (buildArr xs i p path).1, e ∈ L) → jdepthList xs < fuel →
        convertItemsToJson L fuel (buildArr xs i p path).2 = .arr xs) ∧
      (∀ (fs : List (String × JValue)) (p : String) (path : List String),
        fs ≠ [] → nodupKeysB fs = true → someNonNumericKey fs = true →
        goodFields fs = true →
        (∀ e ∈ (buildObj fs p path).1, e ∈ L) → jdepthFields fs < fuel →
        convertItemsToJson L fuel (buildObj fs p path).2 = .obj fs) := by
  intro fuel
  induction fuel with
  | zero =>
    constructor
    · intro xs i p path _ _ _ hdep
      omega
    · intro fs p path _ _ _ _ _ hdep
      omega
  | succ fuel ih =>
    obtain ⟨ihP, ihQ⟩ := ih
    constructor
    · intro xs i p path hg hne hsub hdep
      have hkne : ((buildArr xs i p path).2).isEmpty = false := by
        cases xs with
        | nil => exact absurd rfl hne
        | cons a r => rfl
      simp only [convertItemsToJson]
      simp only [hkne, Bool.false_eq_true, if_false]
      rw [buildArr_all_numeric L hnod p path xs i hsub]
      rw [if_pos rfl]
      rw [buildArr_map_pairs L hnod p path xs i hsub]
      rw [sortByIdx_sorted _ (arrPairs_pairwise p path xs i)]
      rw [arrPairs_map_contrib L fuel ihP ihQ p path xs i hg hsub (by omega)]
    · intro fs p path hne hnk hsnn hgf hsub hdep
      have hkne : ((buildObj fs p path).2).isEmpty = false := by
        cases fs with
        | nil => exact absurd rfl hne
        | cons a r => rfl
      simp only [convertItemsToJson]
      simp only [hkne, Bool.false_eq_true, if_false]
      rw [buildObj_not_all_numeric L hnod p path fs hsub hsnn]
      simp only [Bool.false_eq_true, if_false]
      rw [buildObj_foldl L hnod fuel ihP ihQ p path fs [] hnk hgf hsub
        (fun f _ => rfl) (by omega)]
      rw [List.nil_append]

/-- Counterexample to C1 as stated: three well-formed JSON values whose
tree round trip is not the identity (with ample fuel, so the failures are
genuine).  A falsy leaf value (`0`) reads back as `{}`; an object all of
whose keys look numeric reads back as an array; an empty array root reads
back as `{}`. -/
theorem c1_counterexample :
    convertFromAtlassianTree 2
        (convertToAtlassianTree (.obj [("a", .num 0)]))
      ≠ .obj [("a", .num 0)] ∧
    convertFromAtlassianTree 2
        (convertToAtlassianTree (.obj [("0", .num 5), ("1", .num 6)]))
      ≠ .obj [("0", .num 5), ("1", .num 6)] ∧
    convertFromAtlassianTree 2 (convertToAtlassianTree (.arr []))
      ≠ .arr [] := by
  refine ⟨by decide, by decide, by decide⟩

/-- C1 (amended).  The tree round trip is the identity on *good* values:
the root is a nonempty array or object, every nested object has distinct
keys and (when nonempty) at least one key failing the numeric-title test,
and every leaf value is JS-truthy (empty containers allowed); additionally
the generated item ids must not collide and the fuel must cover the
nesting depth. -/
theorem c1_roundTrip_amended (v : JValue) (fuel : Nat)
    (hg : goodRoot v = true)
    (hnod : ((convertToAtlassianTree v).items.map (fun e => e.1)).Nodup)
    (hfuel : jdepth v ≤ fuel) :
    convertFromAtlassianTree fuel (convertToAtlassianTree v) = v := by
  have hmemroot : ("root", mkRootItem (buildTreeItems v "root" []).2)
      ∈ (convertToAtlassianTree v).items := by
    show ("root", mkRootItem (buildTreeItems v "root" []).2)
      ∈ (buildTreeItems v "root" []).1
        ++ [("root", mkRootItem (buildTreeItems v "root" []).2)]
    simp
  have hroot : lookupItem (convertToAtlassianTree v).items "root"
      = some (mkRootItem (buildTreeItems v "root" []).2) :=
    mem_entry_getAssoc _ _ _ hnod hmemroot
  unfold convertFromAtlassianTree
  rw [show (convertToAtlassianTree v).rootId = "root" from rfl]
  simp only [hroot]
  rw [show (mkRootItem (buildTreeItems v "root" []).2).children
      = (buildTreeItems v "root" []).2 from rfl]
  cases v with
  | null => simp [goodRoot] at hg
  | bool b => simp [goodRoot] at hg
  | num n => simp [goodRoot] at hg
  | str s => simp [goodRoot] at hg
  | arr xs =>
    have hgx : (!xs.isEmpty && goodList xs) = true := hg
    rw [Bool.and_eq_true] at hgx
    have hxs : xs ≠ [] := by
      intro hh
      rw [hh] at hgx
      exact absurd hgx.1 (by decide)
    have hshape : buildTreeItems (.arr xs) "root" []
        = buildArr xs 0 "root" [] := rfl
    rw [hshape]
    have hkne : ((buildArr xs 0 "root" []).2).isEmpty = false := by
      cases xs with
      | nil => exact absurd rfl hxs
      | cons a r => rfl
    rw [hkne]
    simp only [Bool.false_eq_true, if_false]
    refine (convert_build (convertToAtlassianTree (.arr xs)).items hnod
        fuel).1 xs 0 "root" [] hgx.2 hxs ?_ ?_
    · intro e he
      exact List.mem_append.mpr (Or.inl he)
    · have hje : jdepth (.arr xs) = 1 + jdepthList xs := rfl
      omega
  | obj fs =>
    have hgx : (((!fs.isEmpty && nodupKeysB fs) && someNonNumericKey fs)
        && goodFields fs) = true := hg
    simp only [Bool.and_eq_true] at hgx
    have hfs : fs ≠ [] := by
      intro hh
      rw [hh] at hgx
      exact absurd hgx.1.1.1 (by decide)
    have hshape : buildTreeItems (.obj fs) "root" []
        = buildObj fs "root" [] := rfl
    rw [hshape]
    have hkne : ((buildObj fs "root" []).2).isEmpty = false := by
      cases fs with
      | nil => exact absurd rfl hfs
      | cons a r => rfl
    rw [hkne]
    simp only [Bool.false_eq_true, if_false]
    refine (convert_build (convertToAtlassianTree (.obj fs)).items hnod
        fuel).2 fs "root" [] hfs hgx.1.1.2 hgx.1.2 hgx.2 ?_ ?_
    · intro e he
      exact List.mem_append.mpr (Or.inl he)
    · have hje : jdepth (.obj fs) = 1 + jdepthFields fs := rfl
      omega

/-- Witness for the amended C1 at `{"a": 1}` with fuel 1: the hypotheses
hold by computation and the round trip is the identity. -/
theorem c1_roundTrip_amended_witness :
    goodRoot (.obj [("a", .num 1)]) = true ∧
    ((convertToAtlassianTree (.obj [("a", .num 1)])).items.map
      (fun e => e.1)).Nodup ∧
    convertFromAtlassianTree 1 (convertToAtlassianTree (.obj [("a", .num 1)]))
      = .obj [("a", .num 1)] :=
  ⟨by decide, by decide,
   c1_roundTrip_amended (.obj [("a", .num 1)]) 1 (by decide) (by decide)
     (by decide)⟩

end Variably
